import Mathlib

/-!
# sync-tool: pattern matcher, file filter and watch-list cycle

A shallow embedding of `main.go`.

* Go strings are lists of characters.  `filepath.Match` compares pattern
  literals byte by byte and reads `?` and bracket expressions rune by rune; on
  ASCII text, and on every statement below, the two agree.
* `main.go` builds on every platform, and `path/filepath` behaves differently
  on them, so the platform `GOOS` is an argument of everything that reaches
  `filepath.Separator`, `filepath.Split` or `filepath.Match`.  On Windows `\`
  is the separator, `filepath.Split` cuts after either slash and patterns have
  no escape character; elsewhere `/` is the only separator and `\` escapes the
  next pattern character.
* The operating system is a record of answers, `World`, one per cycle.  A
  cycle returns the new watch list together with the file-system calls it made;
  a panic is `none`.  Log output is left out.
-/

namespace SyncTool

/-- A Go string. -/
abbrev Str := List Char

/-! ## Go standard library -/

/-- Function `strings.Split(s, sep)` for a one-character separator. -/
def stringsSplit (sep : Char) : Str → List Str
  | [] => [[]]
  | c :: cs =>
    if c = sep then [] :: stringsSplit sep cs
    else
      match stringsSplit sep cs with
      | [] => [[c]]
      | p :: ps => (c :: p) :: ps

/-- Function `strings.Join(parts, "/")`. -/
def stringsJoin : List Str → Str
  | [] => []
  | [p] => p
  | p :: q :: ps => p ++ '/' :: stringsJoin (q :: ps)

/-- Function `strings.HasPrefix(s, p)`. -/
def stringsHasPrefix (s p : Str) : Bool :=
  match p, s with
  | [], _ => true
  | _ :: _, [] => false
  | a :: p', b :: s' => decide (a = b) && stringsHasPrefix s' p'

/-- Function `strings.Contains(s, sub)`. -/
def stringsContains : Str → Str → Bool
  | [], sub => stringsHasPrefix [] sub
  | c :: cs, sub => stringsHasPrefix (c :: cs) sub || stringsContains cs sub

/-- The call `strings.Replace(s, "\\", "/", -1)`. -/
def replaceBackslashes (s : Str) : Str :=
  s.map fun c => if c = '\\' then '/' else c

/-- The build platform, `runtime.GOOS`: Windows, or any other (linux, darwin). -/
inductive GOOS where
  | windows
  | unix
  deriving DecidableEq, Repr

/-- Constant `filepath.Separator`. -/
def Separator : GOOS → Char
  | .windows => '\\'
  | .unix => '/'

/-- Function `os.IsPathSeparator`: on Windows both slashes separate. -/
def isPathSeparator : GOOS → Char → Bool
  | .windows, c => decide (c = '\\') || decide (c = '/')
  | .unix, c => decide (c = '/')

/-- Whether `\` escapes the next pattern character in `filepath.Match`, the
test `runtime.GOOS != "windows"`. -/
def escapes : GOOS → Bool
  | .windows => false
  | .unix => true

/-- Function `filepath.Split` as documented: the path is cut immediately
after its final separator; without a separator the directory is empty and the
file is the whole path.  Volume names (drive letters without a following
separator, UNC share roots), whose recognition differs between Go releases,
are not modelled. -/
def filepathSplit (goos : GOOS) (path : Str) : Str × Str :=
  let file := (path.reverse.takeWhile fun c => !isPathSeparator goos c).reverse
  (path.take (path.length - file.length), file)

/-- Outcome of `matchChunk`: the three results `(rest, true, nil)`,
`("", false, nil)` and `("", false, ErrBadPattern)`. -/
inductive ChunkResult where
  | ok (rest : Str)
  | fail
  | bad
  deriving DecidableEq, Repr

/-- The scan loop of `scanChunk` after the leading stars are dropped: cuts the
pattern before the first `*` that is not inside a bracket expression.  Where
`\` escapes, the character after it is passed over unread. -/
def scanSplit (goos : GOOS) (inrange : Bool) : Str → Str × Str
  | [] => ([], [])
  | c :: cs =>
    if c = '*' ∧ inrange = false then ([], c :: cs)
    else if c = '\\' ∧ escapes goos = true then
      match cs with
      | [] => ([c], [])
      | d :: cs => (c :: d :: (scanSplit goos inrange cs).1, (scanSplit goos inrange cs).2)
    else
      let inr := if c = '[' then true else if c = ']' then false else inrange
      ((c :: (scanSplit goos inr cs).1), (scanSplit goos inr cs).2)

/-- Function `scanChunk`: `(star, chunk, rest)`. -/
def scanChunk (goos : GOOS) (pattern : Str) : Bool × Str × Str :=
  let p := pattern.dropWhile fun c => decide (c = '*')
  (decide (pattern.head? = some '*'), (scanSplit goos false p).1, (scanSplit goos false p).2)

mutual
/-- Function `matchChunk`, with the `failed` flag of its loop as an argument. -/
def matchChunkFrom (goos : GOOS) (failed : Bool) : Str → Str → ChunkResult
  | [], s => if failed then .fail else .ok s
  | c :: chunk, s =>
    let failed := failed || s.isEmpty
    if c = '[' then
      let r : Nat := if failed then 0 else (s.headD 'x').toNat
      let s := if failed then s else s.tail
      match chunk with
      | [] => .bad
      | d :: chunk =>
        if d = '^' then matchClass goos failed true r s false 0 chunk
        else matchClass goos failed false r s false 0 (d :: chunk)
    else if c = '?' then
      matchChunkFrom goos (failed || decide (s.head? = some (Separator goos))) chunk
        (if failed then s else s.tail)
    else if c = '\\' ∧ escapes goos = true then
      match chunk with
      | [] => .bad
      | d :: chunk =>
        matchChunkFrom goos (failed || decide (s.head? ≠ some d)) chunk
          (if failed then s else s.tail)
    else
      matchChunkFrom goos (failed || decide (s.head? ≠ some c)) chunk
        (if failed then s else s.tail)
/-- The range loop of a bracket expression in `matchChunk`, with `getEsc`
inlined: a bound is one character, or where `\` escapes, `\` and the character
after it; a bound must not be the last character of the chunk. -/
def matchClass (goos : GOOS) (failed negated : Bool) (r : Nat) (s : Str) (isMatch : Bool)
    (nrange : Nat) : Str → ChunkResult
  | [] => .bad
  | c :: chunk =>
    if c = ']' ∧ 0 < nrange then
      matchChunkFrom goos (failed || (isMatch == negated)) chunk s
    else if c = '-' ∨ c = ']' then .bad
    else if c = '\\' ∧ escapes goos = true then
      match chunk with
      | [] => .bad
      | lo :: chunk =>
        match chunk with
        | [] => .bad
        | d :: chunk =>
          if d = '-' then
            match chunk with
            | [] => .bad
            | hi :: chunk =>
              if hi = '-' ∨ hi = ']' then .bad
              else if hi = '\\' ∧ escapes goos = true then
                match chunk with
                | [] => .bad
                | hi :: chunk =>
                  match chunk with
                  | [] => .bad
                  | e :: chunk =>
                    matchClass goos failed negated r s
                      (isMatch || (decide (lo.toNat ≤ r) && decide (r ≤ hi.toNat)))
                      (nrange + 1) (e :: chunk)
              else
                match chunk with
                | [] => .bad
                | e :: chunk =>
                  matchClass goos failed negated r s
                    (isMatch || (decide (lo.toNat ≤ r) && decide (r ≤ hi.toNat)))
                    (nrange + 1) (e :: chunk)
          else
            matchClass goos failed negated r s (isMatch || decide (lo.toNat = r))
              (nrange + 1) (d :: chunk)
    else
      match chunk with
      | [] => .bad
      | d :: chunk =>
        if d = '-' then
          match chunk with
          | [] => .bad
          | hi :: chunk =>
            if hi = '-' ∨ hi = ']' then .bad
            else if hi = '\\' ∧ escapes goos = true then
              match chunk with
              | [] => .bad
              | hi :: chunk =>
                match chunk with
                | [] => .bad
                | e :: chunk =>
                  matchClass goos failed negated r s
                    (isMatch || (decide (c.toNat ≤ r) && decide (r ≤ hi.toNat)))
                    (nrange + 1) (e :: chunk)
            else
              match chunk with
              | [] => .bad
              | e :: chunk =>
                matchClass goos failed negated r s
                  (isMatch || (decide (c.toNat ≤ r) && decide (r ≤ hi.toNat)))
                  (nrange + 1) (e :: chunk)
        else
          matchClass goos failed negated r s (isMatch || decide (c.toNat = r))
            (nrange + 1) (d :: chunk)
end

/-- Function `matchChunk`. -/
def matchChunk (goos : GOOS) (chunk s : Str) : ChunkResult :=
  matchChunkFrom goos false chunk s

/-- The loop of `Match` that retries the chunk after skipping `i+1` characters
of the name, never past a separator.  `some t` continues the pattern loop with
the name `t`; `none` leaves `Match` with `false`. -/
def starLoop (goos : GOOS) (chunk : Str) (lastChunk : Bool) : Str → Option Str
  | [] => none
  | c :: cs =>
    if c = Separator goos then none
    else
      match matchChunk goos chunk cs with
      | .ok t => if lastChunk && !t.isEmpty then starLoop goos chunk lastChunk cs else some t
      | .bad => none
      | .fail => starLoop goos chunk lastChunk cs

/-- The pattern loop of `filepath.Match`; one unit of fuel per chunk. -/
def matchLoop (goos : GOOS) : Nat → Str → Str → Option Bool
  | 0, _, _ => none
  | fuel + 1, pattern, name =>
    if pattern = [] then some name.isEmpty
    else
      let star := (scanChunk goos pattern).1
      let chunk := (scanChunk goos pattern).2.1
      let rest := (scanChunk goos pattern).2.2
      if star && chunk.isEmpty then some (!name.contains (Separator goos))
      else
        match matchChunk goos chunk name with
        | .ok t =>
          if t.isEmpty || !rest.isEmpty then matchLoop goos fuel rest t
          else if star then
            match starLoop goos chunk rest.isEmpty name with
            | some t => matchLoop goos fuel rest t
            | none => some false
          else some false
        | .bad => some false
        | .fail =>
          if star then
            match starLoop goos chunk rest.isEmpty name with
            | some t => matchLoop goos fuel rest t
            | none => some false
          else some false

/-- The boolean result of `filepath.Match(pattern, name)`; the error is dropped
as in `result, _ := filepath.Match(...)`.  The fuel is enough
(`filepathMatch_returns`). -/
def filepathMatch (goos : GOOS) (pattern name : Str) : Bool :=
  (matchLoop goos (pattern.length + 1) pattern name).getD false

/-! ## Pattern matcher -/

def isDirWildCardPattern (pattern : Str) : Bool :=
  stringsHasPrefix pattern "**".toList

def isFileWildCardPattern (pattern : Str) : Bool :=
  stringsHasPrefix pattern "*.".toList

def containsExactDirPattern (patterns : List Str) : Bool :=
  patterns.foldl
    (fun containsExactDirs pattern =>
      if !isDirWildCardPattern pattern then
        if !isFileWildCardPattern pattern then true else containsExactDirs
      else containsExactDirs)
    false

def getPatternWithoutWildcards (patterns : List Str) : Str :=
  stringsJoin <|
    patterns.foldl
      (fun result pattern =>
        if !isDirWildCardPattern pattern then
          if !isFileWildCardPattern pattern then result ++ [pattern] else result
        else result)
      []

def patternMatchtesFilepath (goos : GOOS) (pattern fileName : Str) : Bool :=
  let parts := stringsSplit '/' pattern
  let fileName := replaceBackslashes fileName
  if 1 < parts.length then
    if containsExactDirPattern parts then
      if stringsContains fileName (getPatternWithoutWildcards parts) then
        if isFileWildCardPattern (parts.getLastD []) then
          filepathMatch goos (parts.getLastD []) (filepathSplit goos fileName).2
        else true
      else filepathMatch goos pattern fileName
    else if isDirWildCardPattern pattern then
      filepathMatch goos (parts.getLastD []) (filepathSplit goos fileName).2
    else filepathMatch goos pattern fileName
  else filepathMatch goos pattern fileName

/-! ## File filter -/

structure Mapping where
  SourceRoot : Str
  DestinationRoot : Str
  IncludedFiles : Str
  IgnoredFiles : Str
  CleanupPatterns : List Str

structure SyncConfig where
  Mappings : List Mapping

def isDotFile (goos : GOOS) (path : Str) : Bool :=
  let fileName := (filepathSplit goos path).2
  if stringsHasPrefix fileName ".".toList then true else false

def matchesIncludedFileConfig (goos : GOOS) (fileName : Str) (mapping : Mapping) : Bool :=
  if mapping.IncludedFiles = [] then true
  else patternMatchtesFilepath goos mapping.IncludedFiles fileName

def matchesIgnoredFileConfig (goos : GOOS) (fileName : Str) (mapping : Mapping) : Bool :=
  if mapping.IgnoredFiles = [] then false
  else patternMatchtesFilepath goos mapping.IgnoredFiles fileName

def fileShouldBeSynced (goos : GOOS) (fileName : Str) (mapping : Mapping) : Bool :=
  if isDotFile goos fileName then false
  else if matchesIgnoredFileConfig goos fileName mapping then false
  else if matchesIncludedFileConfig goos fileName mapping then true
  else false

/-! ## Watch list and cycle -/

structure WatchedFile where
  Path : Str
  AbsolutePath : Str
  Destination : Str
  LastChanged : Nat
  Hash : Str
  NeedsSync : Bool
  Alive : Bool
  deriving DecidableEq, Repr

/-- The map `FileWatchList`, as the list of its key/value pairs; `range` visits
them in list order, one of the orders Go may choose.  The statements below
speak of membership only and hold for every order. -/
abbrev FileWatchList := List (Str × WatchedFile)

/-- The three outcomes of `os.Stat` that `doesDirOrFileExist` tells apart. -/
inductive StatResult where
  | found
  | notExist
  | otherError
  deriving DecidableEq, Repr

/-- The two fields of `os.FileInfo` the walk callback reads. -/
structure FileInfo where
  IsDir : Bool
  ModTime : Nat

/-- What the operating system and the path library answer during one cycle. -/
structure World where
  /-- The platform the program is built for. -/
  goos : GOOS
  osStat : Str → StatResult
  filepathIsAbs : Str → Bool
  filepathAbs : Str → Str
  filepathRel : Str → Str → Str
  filepathJoin : Str → Str → Str
  filepathDir : Str → Str
  /-- The directory of the executable, `filepath.Abs(filepath.Dir(os.Args[0]))`. -/
  processDir : Str
  /-- The files and directories `filepath.Walk(root, _)` visits, in order. -/
  walk : Str → List (Str × FileInfo)
  /-- Result of `ioutil.ReadFile`; `none` is an error. -/
  readFile : Str → Option Str
  /-- The SHA-256 digest of a content in URL-safe base64. -/
  sha256Base64 : Str → Str
  /-- Whether `os.Open` succeeds. -/
  osOpen : Str → Bool
  /-- Whether `os.Create` succeeds. -/
  osCreate : Str → Bool
  /-- Whether `io.Copy` succeeds. -/
  ioCopy : Str → Str → Bool

/-- A file-system call that changes the destination tree. -/
inductive Effect where
  | osRemove (path : Str)
  | osMkdirAll (path : Str)
  /-- The call of `copyFile`, with whether it returned an error. -/
  | copyFile (sourcePath destinationPath : Str) (failed : Bool)
  deriving DecidableEq, Repr

def doesDirOrFileExist (os : World) (path : Str) : Bool :=
  match os.osStat path with
  | .found => true
  | .notExist => false
  | .otherError => true

def getAbsPathRelativeToProcessDir (os : World) (filePath : Str) : Str :=
  if !os.filepathIsAbs filePath then os.filepathJoin os.processDir filePath
  else filePath

/-- Function `copyFile`; `true` stands for a non-nil error. -/
def copyFile (os : World) (sourcePath destinationPath : Str) : Bool :=
  if doesDirOrFileExist os sourcePath then
    if !os.osOpen sourcePath then true
    else if !os.osCreate destinationPath then true
    else if !os.ioCopy sourcePath destinationPath then true
    else false
  else false

/-- Function `generateSha256HashForFile`; `none` is the panic of `readFile`. -/
def generateSha256HashForFile (os : World) (file : Str) : Option Str :=
  (os.readFile file).map os.sha256Base64

/-- Decimal digits of a mapping index, as `%v` prints an `int`. -/
def formatInt (n : Nat) : Str :=
  (Nat.toDigits 10 n)

/-- The key `fmt.Sprintf("%v-%v", index, destinationFilepath)`. -/
def watchKey (index : Nat) (destinationFilepath : Str) : Str :=
  formatInt index ++ '-' :: destinationFilepath

/-- The map read `watchList[key]`. -/
def lookupWatch (key : Str) : FileWatchList → Option WatchedFile
  | [] => none
  | (k, v) :: rest => if k = key then some v else lookupWatch key rest

/-- The map write `watchList[key] = watcher`. -/
def storeWatch (key : Str) (watcher : WatchedFile) : FileWatchList → FileWatchList
  | [] => [(key, watcher)]
  | (k, v) :: rest =>
    if k = key then (k, watcher) :: rest else (k, v) :: storeWatch key watcher rest

def markAndSweepWatchList : FileWatchList → FileWatchList × List Effect
  | [] => ([], [])
  | (key, watchedFile) :: rest =>
    if watchedFile.Alive then
      ((key, { watchedFile with Alive := false }) :: (markAndSweepWatchList rest).1,
        (markAndSweepWatchList rest).2)
    else
      ((markAndSweepWatchList rest).1,
        Effect.osRemove watchedFile.Destination :: (markAndSweepWatchList rest).2)

def doCopy (os : World) (watchedFile : WatchedFile) : WatchedFile × List Effect :=
  if watchedFile.NeedsSync then
    if doesDirOrFileExist os watchedFile.AbsolutePath then
      if watchedFile.AbsolutePath ≠ [] ∧ watchedFile.Destination ≠ [] then
        ({ watchedFile with NeedsSync := false },
          [Effect.osMkdirAll (os.filepathDir watchedFile.Destination),
            Effect.copyFile watchedFile.AbsolutePath watchedFile.Destination
              (copyFile os watchedFile.AbsolutePath watchedFile.Destination)])
      else (watchedFile, [])
    else (watchedFile, [])
  else (watchedFile, [])

/-- The callback handed to `filepath.Walk`; `none` is the panic of `readFile`. -/
def walkCallback (os : World) (index : Nat) (mapping : Mapping) (watchList : FileWatchList)
    (path : Str) (fileInfo : FileInfo) : Option FileWatchList :=
  if !fileInfo.IsDir then
    let absoluteSrcFilepath := os.filepathAbs path
    let pathRelativeToSource := os.filepathRel mapping.SourceRoot path
    let destinationFilepath := os.filepathJoin mapping.DestinationRoot pathRelativeToSource
    let key := watchKey index destinationFilepath
    if fileShouldBeSynced os.goos absoluteSrcFilepath mapping then
      let watcher : WatchedFile :=
        match lookupWatch key watchList with
        | some watcher => watcher
        | none =>
          { Path := path, AbsolutePath := absoluteSrcFilepath,
            Destination := destinationFilepath, LastChanged := 0, Hash := [],
            NeedsSync := false, Alive := false }
      match generateSha256HashForFile os absoluteSrcFilepath with
      | none => none
      | some fileHash =>
        let watcher : WatchedFile :=
          if watcher.Hash ≠ fileHash then { watcher with Hash := fileHash, NeedsSync := true }
          else watcher
        some (storeWatch key { watcher with LastChanged := fileInfo.ModTime, Alive := true }
          watchList)
    else some watchList
  else some watchList

/-- The loop of `filepath.Walk` over the visited entries.  Every entry comes
with its `FileInfo`; a walk error, on which the callback would read a nil
`fileInfo`, is not modelled. -/
def walkEntries (os : World) (index : Nat) (mapping : Mapping) :
    List (Str × FileInfo) → FileWatchList → Option FileWatchList
  | [], watchList => some watchList
  | (path, fileInfo) :: rest, watchList =>
    match walkCallback os index mapping watchList path fileInfo with
    | none => none
    | some watchList => walkEntries os index mapping rest watchList

/-- Function `buildFileWatchListForDirectory`; `none` is the returned
`Source dir could not be found` error or a panic in the callback, both of which
end the process in `scanAndCoppyMappedDirs`. -/
def buildFileWatchListForDirectory (os : World) (index : Nat) (mapping : Mapping)
    (watchList : FileWatchList) : Option FileWatchList :=
  if !doesDirOrFileExist os (getAbsPathRelativeToProcessDir os mapping.SourceRoot) then none
  else walkEntries os index mapping (os.walk mapping.SourceRoot) watchList

/-- The first loop of `scanAndCoppyMappedDirs`, from mapping `index` on. -/
def scanMappings (os : World) : Nat → List Mapping → FileWatchList → Option FileWatchList
  | _, [], watchList => some watchList
  | index, mapping :: rest, watchList =>
    match buildFileWatchListForDirectory os index mapping watchList with
    | none => none
    | some watchList => scanMappings os (index + 1) rest watchList

/-- The second loop of `scanAndCoppyMappedDirs`. -/
def copyAll (os : World) : FileWatchList → FileWatchList × List Effect
  | [] => ([], [])
  | (key, watchedFile) :: rest =>
    ((key, (doCopy os watchedFile).1) :: (copyAll os rest).1,
      (doCopy os watchedFile).2 ++ (copyAll os rest).2)

def scanAndCoppyMappedDirs (os : World) (config : SyncConfig) (watchList : FileWatchList) :
    Option (FileWatchList × List Effect) :=
  (scanMappings os 0 config.Mappings watchList).map (copyAll os)

/-- One cycle: the watch list and the file-system calls it leaves behind, or
`none` when the process panics. -/
def handleTick (os : World) (config : SyncConfig) (watchList : FileWatchList) :
    Option (FileWatchList × List Effect) :=
  match scanAndCoppyMappedDirs os config (markAndSweepWatchList watchList).1 with
  | none => none
  | some result => some (result.1, (markAndSweepWatchList watchList).2 ++ result.2)

/-! ## Vocabulary of the statements -/

/-- The segments of a pattern that are neither directory wildcards nor file
wildcards. -/
def exactSegments (pattern : Str) : List Str :=
  (stringsSplit '/' pattern).filter fun seg =>
    !isDirWildCardPattern seg && !isFileWildCardPattern seg

/-- The registry key and the content hash of every file among the visited
entries that the walk callback accepts: a non-directory whose absolute path
passes `fileShouldBeSynced`. -/
def observedEntries (os : World) (index : Nat) (mapping : Mapping) :
    List (Str × FileInfo) → List (Str × Option Str)
  | [] => []
  | (path, fileInfo) :: rest =>
    if fileInfo.IsDir = false ∧ fileShouldBeSynced os.goos (os.filepathAbs path) mapping = true then
      (watchKey index
          (os.filepathJoin mapping.DestinationRoot (os.filepathRel mapping.SourceRoot path)),
        generateSha256HashForFile os (os.filepathAbs path)) ::
        observedEntries os index mapping rest
    else observedEntries os index mapping rest

/-- The observations of the mappings from `index` on. -/
def observedFrom (os : World) : Nat → List Mapping → List (Str × Option Str)
  | _, [] => []
  | index, mapping :: rest =>
    observedEntries os index mapping (os.walk mapping.SourceRoot) ++
      observedFrom os (index + 1) rest

/-- The observations of one cycle: key and hash of every accepted file. -/
def observed (os : World) (config : SyncConfig) : List (Str × Option Str) :=
  observedFrom os 0 config.Mappings

/-- The watch entry the walk callback stores for an accepted file, from the
entry found under its key, if any. -/
def refreshedWatcher (found : Option WatchedFile) (path absoluteSrcFilepath
    destinationFilepath fileHash : Str) (modTime : Nat) : WatchedFile :=
  let watcher : WatchedFile :=
    match found with
    | some watcher => watcher
    | none =>
      { Path := path, AbsolutePath := absoluteSrcFilepath,
        Destination := destinationFilepath, LastChanged := 0, Hash := [],
        NeedsSync := false, Alive := false }
  let watcher : WatchedFile :=
    if watcher.Hash ≠ fileHash then { watcher with Hash := fileHash, NeedsSync := true }
    else watcher
  { watcher with LastChanged := modTime, Alive := true }

/-- What the walk callback does to the watch list when it accepts a file. -/
def storeObserved (w : FileWatchList) (key fileHash path absoluteSrcFilepath
    destinationFilepath : Str) (modTime : Nat) : FileWatchList :=
  storeWatch key
    (refreshedWatcher (lookupWatch key w) path absoluteSrcFilepath destinationFilepath fileHash
      modTime) w

/-! ## A concrete world -/

/-- A mapping from `src` to `dst` without include and ignore patterns. -/
def sampleMapping : Mapping :=
  { SourceRoot := "src".toList, DestinationRoot := "dst".toList, IncludedFiles := [],
    IgnoredFiles := [], CleanupPatterns := [] }

def sampleConfig : SyncConfig :=
  { Mappings := [sampleMapping] }

/-- A world on the given platform whose source tree `src` holds the given
files, each with its path as content; paths are already absolute, `Rel` drops
the root and `Join` puts a `/` in between.  Opening, creating and copying
succeed as `copies` says. -/
def sampleWorld (goos : GOOS) (files : List Str) (copies : Bool) : World :=
  { goos := goos
    osStat := fun p => if p = "src".toList ∨ p ∈ files then .found else .notExist
    filepathIsAbs := fun _ => true
    filepathAbs := fun p => p
    filepathRel := fun root p => p.drop (root.length + 1)
    filepathJoin := fun a b => a ++ '/' :: b
    filepathDir := fun p => (filepathSplit goos p).1
    processDir := []
    walk := fun root =>
      if root = "src".toList then
        ("src".toList, { IsDir := true, ModTime := 0 }) ::
          files.map fun f => (f, { IsDir := false, ModTime := 1 })
      else []
    readFile := fun p => if p ∈ files then some p else none
    sha256Base64 := fun content => '#' :: content
    osOpen := fun _ => true
    osCreate := fun _ => copies
    ioCopy := fun _ _ => true }

/-- The watch entry of `src/a.txt` after the cycle that found it. -/
def sampleEntry (alive : Bool) : WatchedFile :=
  { Path := "src/a.txt".toList, AbsolutePath := "src/a.txt".toList,
    Destination := "dst/a.txt".toList, LastChanged := 1, Hash := "#src/a.txt".toList,
    NeedsSync := false, Alive := alive }

/-! ## Lemmas: strings and paths -/

theorem takeWhile_append_of_all {α : Type} (p : α → Bool) (l r : List α)
    (h : ∀ x ∈ l, p x = true) : (l ++ r).takeWhile p = l ++ r.takeWhile p := by
  induction l with
  | nil => rfl
  | cons a l ih =>
    have ha : p a = true := h a (List.mem_cons_self a l)
    have hl : ∀ x ∈ l, p x = true := fun x hx => h x (List.mem_cons_of_mem a hx)
    simp [List.takeWhile_cons, ha, ih hl]

/-- Splitting recovers a separator-free file name behind a directory part that
is empty or ends in a separator. -/
theorem filepathSplit_append (goos : GOOS) (dir name : Str)
    (hdir : dir = [] ∨ ∃ d c, dir = d ++ [c] ∧ isPathSeparator goos c = true)
    (hname : ∀ c ∈ name, isPathSeparator goos c = false) :
    filepathSplit goos (dir ++ name) = (dir, name) := by
  have hfile :
      ((dir ++ name).reverse.takeWhile fun c => !isPathSeparator goos c).reverse = name := by
    rw [List.reverse_append, takeWhile_append_of_all]
    · rcases hdir with rfl | ⟨d, c, rfl, hc⟩
      · simp
      · simp [List.takeWhile_cons, hc]
    · intro x hx
      simp [hname x (List.mem_reverse.mp hx)]
  unfold filepathSplit
  simp only [hfile]
  simp

theorem stringsHasPrefix_cons_self (c : Char) (s : Str) :
    stringsHasPrefix (c :: s) [c] = true := by
  simp [stringsHasPrefix]

theorem stringsSplit_ne_nil (sep : Char) (s : Str) : stringsSplit sep s ≠ [] := by
  induction s with
  | nil => simp [stringsSplit]
  | cons c cs ih =>
    unfold stringsSplit
    split
    · simp
    · split <;> simp

theorem stringsSplit_of_not_mem (sep : Char) (s : Str) (h : sep ∉ s) :
    stringsSplit sep s = [s] := by
  induction s with
  | nil => simp [stringsSplit]
  | cons c cs ih =>
    have hc : c ≠ sep := fun e => h (by simp [e])
    have hcs : sep ∉ cs := fun e => h (List.mem_cons_of_mem c e)
    simp [stringsSplit, hc, ih hcs]

theorem stringsSplit_length_of_mem (sep : Char) (s : Str) (h : sep ∈ s) :
    1 < (stringsSplit sep s).length := by
  induction s with
  | nil => simp at h
  | cons c cs ih =>
    unfold stringsSplit
    by_cases hc : c = sep
    · have := stringsSplit_ne_nil sep cs
      simp only [hc, if_true, List.length_cons]
      have : 0 < (stringsSplit sep cs).length := List.length_pos.mpr this
      omega
    · have hcs : sep ∈ cs := by
        rcases List.mem_cons.mp h with e | e
        · exact absurd e.symm hc
        · exact e
      have := ih hcs
      simp only [hc, if_false]
      split
      · rename_i heq; simp [heq] at this
      · rename_i p ps heq; simpa [heq] using this

theorem stringsHasPrefix_iff (s p : Str) : stringsHasPrefix s p = true ↔ p <+: s := by
  induction p generalizing s with
  | nil => simp [stringsHasPrefix]
  | cons a p ih =>
    cases s with
    | nil => simp [stringsHasPrefix]
    | cons b s =>
      simp only [stringsHasPrefix, Bool.and_eq_true, decide_eq_true_eq, ih, List.cons_prefix_cons]

theorem stringsContains_iff (s sub : Str) : stringsContains s sub = true ↔ sub <:+: s := by
  induction s with
  | nil =>
    simp only [stringsContains, stringsHasPrefix_iff]
    constructor
    · intro h; exact h.isInfix
    · intro h; simp [List.eq_nil_of_infix_nil h]
  | cons c cs ih =>
    simp only [stringsContains, Bool.or_eq_true, stringsHasPrefix_iff, ih, List.infix_cons_iff]

theorem containsExactDirPattern_foldl (acc : Bool) (patterns : List Str) :
    patterns.foldl
      (fun containsExactDirs pattern =>
        if !isDirWildCardPattern pattern then
          if !isFileWildCardPattern pattern then true else containsExactDirs
        else containsExactDirs) acc = true ↔
    acc = true ∨ ∃ seg ∈ patterns, isDirWildCardPattern seg = false ∧
      isFileWildCardPattern seg = false := by
  induction patterns generalizing acc with
  | nil => simp
  | cons p ps ih =>
    rw [List.foldl_cons, ih]
    cases hd : isDirWildCardPattern p <;> cases hf : isFileWildCardPattern p <;>
      simp [hd, hf]

theorem containsExactDirPattern_iff (patterns : List Str) :
    containsExactDirPattern patterns = true ↔
      ∃ seg ∈ patterns, isDirWildCardPattern seg = false ∧ isFileWildCardPattern seg = false := by
  unfold containsExactDirPattern
  rw [containsExactDirPattern_foldl]
  simp

theorem getPatternWithoutWildcards_foldl (acc : List Str) (patterns : List Str) :
    patterns.foldl
      (fun result pattern =>
        if !isDirWildCardPattern pattern then
          if !isFileWildCardPattern pattern then result ++ [pattern] else result
        else result) acc =
    acc ++ patterns.filter fun seg => !isDirWildCardPattern seg && !isFileWildCardPattern seg := by
  induction patterns generalizing acc with
  | nil => simp
  | cons p ps ih =>
    rw [List.foldl_cons, ih]
    cases hd : isDirWildCardPattern p <;> cases hf : isFileWildCardPattern p <;>
      simp [hd, hf, List.filter_cons]

theorem getPatternWithoutWildcards_eq (patterns : List Str) :
    getPatternWithoutWildcards patterns =
      stringsJoin (patterns.filter fun seg =>
        !isDirWildCardPattern seg && !isFileWildCardPattern seg) := by
  unfold getPatternWithoutWildcards
  rw [getPatternWithoutWildcards_foldl]
  simp

theorem stringsSplit_mem_sub (sep : Char) (s : Str) :
    ∀ seg ∈ stringsSplit sep s, ∀ c ∈ seg, c ∈ s := by
  induction s with
  | nil => simp [stringsSplit]
  | cons a s ih =>
    intro seg hseg c hc
    unfold stringsSplit at hseg
    by_cases ha : a = sep
    · simp only [ha, if_true, List.mem_cons] at hseg
      rcases hseg with rfl | hseg
      · simp at hc
      · exact List.mem_cons_of_mem a (ih seg hseg c hc)
    · simp only [ha, if_false] at hseg
      cases hsp : stringsSplit sep s with
      | nil => exact absurd hsp (stringsSplit_ne_nil sep s)
      | cons p ps =>
        rw [hsp] at hseg ih
        simp only [List.mem_cons] at hseg
        rcases hseg with rfl | hseg
        · rcases List.mem_cons.mp hc with rfl | hc
          · exact List.mem_cons_self _ _
          · exact List.mem_cons_of_mem a (ih p (List.mem_cons_self p ps) c hc)
        · exact List.mem_cons_of_mem a (ih seg (List.mem_cons_of_mem p hseg) c hc)

theorem getLastD_mem {α : Type} (l : List α) (d : α) (h : l ≠ []) : l.getLastD d ∈ l := by
  cases l with
  | nil => exact absurd rfl h
  | cons a l =>
    rw [List.getLastD_cons]
    induction l generalizing a with
    | nil => simp
    | cons b l ih =>
      rw [List.getLastD_cons]
      exact List.mem_cons_of_mem a (ih b (by simp))

theorem stringsJoin_ne_nil (l : List Str) (hl : l ≠ []) (h : ∀ s ∈ l, s ≠ []) :
    stringsJoin l ≠ [] := by
  cases l with
  | nil => exact absurd rfl hl
  | cons p ps =>
    cases ps with
    | nil => simpa [stringsJoin] using h p (List.mem_cons_self p [])
    | cons q ps => simp [stringsJoin]

theorem replaceBackslashes_no_backslash (s : Str) : '\\' ∉ replaceBackslashes s := by
  unfold replaceBackslashes
  intro h
  obtain ⟨c, _, hc⟩ := List.mem_map.mp h
  by_cases hb : c = '\\'
  · simp [hb] at hc
  · simp [hb] at hc

theorem replaceBackslashes_append (s t : Str) :
    replaceBackslashes (s ++ t) = replaceBackslashes s ++ replaceBackslashes t := by
  simp [replaceBackslashes]

theorem replaceBackslashes_of_not_mem (s : Str) (h : '\\' ∉ s) : replaceBackslashes s = s := by
  induction s with
  | nil => rfl
  | cons c s ih =>
    have hc : c ≠ '\\' := fun e => h (by simp [e])
    have hs : '\\' ∉ s := fun e => h (List.mem_cons_of_mem c e)
    have := ih hs
    unfold replaceBackslashes at this ⊢
    simp [hc, this]

/-- Without a `/` in the pattern the matcher is a glob match of the pattern
against the path with its back slashes rewritten. -/
theorem patternMatchtesFilepath_of_no_slash (goos : GOOS) (p path : Str) (h : '/' ∉ p) :
    patternMatchtesFilepath goos p path = filepathMatch goos p (replaceBackslashes path) := by
  unfold patternMatchtesFilepath
  simp [stringsSplit_of_not_mem '/' p h]

/-! ## Lemmas: `filepath.Match` -/

theorem scanSplit_rest_length_aux (goos : GOOS) (n : Nat) :
    ∀ (inrange : Bool) (p : Str), p.length ≤ n →
      (scanSplit goos inrange p).2.length ≤ p.length := by
  induction n with
  | zero =>
    intro inrange p hlen
    have : p = [] := List.length_eq_zero.mp (Nat.le_zero.mp hlen)
    subst this
    simp [scanSplit]
  | succ n ih =>
    intro inrange p hlen
    cases p with
    | nil => simp [scanSplit]
    | cons c cs =>
      have hcs : cs.length ≤ n := by simpa using hlen
      unfold scanSplit
      split
      · simp
      · split
        · split
          · simp
          · rename_i d cs'
            have := ih inrange cs' (by simp at hcs; omega)
            simp only [List.length_cons]
            omega
        · have := ih (if c = '[' then true else if c = ']' then false else inrange) cs hcs
          simp only [List.length_cons]
          omega

theorem scanSplit_rest_length (goos : GOOS) (inrange : Bool) (p : Str) :
    (scanSplit goos inrange p).2.length ≤ p.length :=
  scanSplit_rest_length_aux goos p.length inrange p (Nat.le_refl _)

theorem scanSplit_cons_rest_length (goos : GOOS) (inrange : Bool) (c : Char) (cs : Str)
    (h : ¬ (c = '*' ∧ inrange = false)) :
    (scanSplit goos inrange (c :: cs)).2.length ≤ cs.length := by
  unfold scanSplit
  simp only [h, if_false]
  split
  · split
    · simp
    · rename_i d cs'
      have := scanSplit_rest_length goos inrange cs'
      simp only [List.length_cons]
      omega
  · exact scanSplit_rest_length goos _ cs

theorem scanChunk_rest_length (goos : GOOS) (pattern : Str) (h : pattern ≠ []) :
    (scanChunk goos pattern).2.2.length < pattern.length := by
  cases pattern with
  | nil => exact absurd rfl h
  | cons c cs =>
    unfold scanChunk
    by_cases hc : c = '*'
    · have h1 := scanSplit_rest_length goos false (cs.dropWhile fun c => decide (c = '*'))
      have h2 : (cs.dropWhile fun c => decide (c = '*')).length ≤ cs.length :=
        (List.dropWhile_sublist _).length_le
      simp only [List.dropWhile_cons, hc, decide_True, if_true, List.length_cons]
      omega
    · have hdrop : ((c :: cs).dropWhile fun c => decide (c = '*')) = c :: cs := by
        simp [List.dropWhile_cons, hc]
      have h1 := scanSplit_cons_rest_length goos false c cs (by simp [hc])
      simp only [hdrop, List.length_cons]
      omega

/-- The fuel `filepath.Match` is run with is enough: the pattern loop always
returns. -/
theorem matchLoop_isSome (goos : GOOS) (fuel : Nat) (pattern name : Str)
    (h : pattern.length < fuel) : (matchLoop goos fuel pattern name).isSome = true := by
  induction fuel generalizing pattern name with
  | zero => omega
  | succ fuel ih =>
    rw [matchLoop]
    by_cases hp : pattern = []
    · simp [hp]
    · have hrest := scanChunk_rest_length goos pattern hp
      have hlt : (scanChunk goos pattern).2.2.length < fuel := by omega
      simp only [hp, if_false]
      split
      · rfl
      · split
        · split
          · exact ih _ _ hlt
          · split
            · split
              · exact ih _ _ hlt
              · rfl
            · rfl
        · rfl
        · split
          · split
            · exact ih _ _ hlt
            · rfl
          · rfl

theorem filepathMatch_returns (goos : GOOS) (pattern name : Str) :
    matchLoop goos (pattern.length + 1) pattern name =
      some (filepathMatch goos pattern name) := by
  have h := matchLoop_isSome goos (pattern.length + 1) pattern name (Nat.lt_succ_self _)
  unfold filepathMatch
  cases hm : matchLoop goos (pattern.length + 1) pattern name with
  | none => simp [hm] at h
  | some b => rfl

/-- Once the `failed` flag is set, a chunk without `[`, `?` and `\` ends in a
plain mismatch. -/
theorem matchChunkFrom_failed_literal (goos : GOOS) (chunk s : Str)
    (h : ∀ c ∈ chunk, c ≠ '[' ∧ c ≠ '?' ∧ c ≠ '\\') :
    matchChunkFrom goos true chunk s = .fail := by
  induction chunk generalizing s with
  | nil => simp [matchChunkFrom]
  | cons c chunk ih =>
    have hc := h c (List.mem_cons_self c chunk)
    have ht : ∀ x ∈ chunk, x ≠ '[' ∧ x ≠ '?' ∧ x ≠ '\\' :=
      fun x hx => h x (List.mem_cons_of_mem c hx)
    unfold matchChunkFrom
    simp [hc.1, hc.2.1, hc.2.2, ih _ ht]

/-- A chunk without `[`, `?` and `\` matches exactly when it is a prefix of the
name, and leaves what follows the prefix. -/
theorem matchChunkFrom_literal (goos : GOOS) (chunk s : Str)
    (h : ∀ c ∈ chunk, c ≠ '[' ∧ c ≠ '?' ∧ c ≠ '\\') :
    matchChunkFrom goos false chunk s =
      if stringsHasPrefix s chunk then .ok (s.drop chunk.length) else .fail := by
  induction chunk generalizing s with
  | nil => simp [matchChunkFrom, stringsHasPrefix]
  | cons c chunk ih =>
    have hc := h c (List.mem_cons_self c chunk)
    have ht : ∀ x ∈ chunk, x ≠ '[' ∧ x ≠ '?' ∧ x ≠ '\\' :=
      fun x hx => h x (List.mem_cons_of_mem c hx)
    unfold matchChunkFrom
    cases s with
    | nil =>
      simp [hc.1, hc.2.1, hc.2.2, matchChunkFrom_failed_literal _ _ _ ht, stringsHasPrefix]
    | cons b s =>
      by_cases hb : b = c
      · subst hb
        simp [hc.1, hc.2.1, hc.2.2, ih _ ht, stringsHasPrefix]
      · have hb' : ¬ c = b := fun e => hb e.symm
        simp [hc.1, hc.2.1, hc.2.2, hb, hb', matchChunkFrom_failed_literal _ _ _ ht,
          stringsHasPrefix]

/-- With the `failed` flag set neither loop of `matchChunk` reports a match. -/
theorem matchChunk_failed_aux (goos : GOOS) (n : Nat) :
    ∀ chunk : Str, chunk.length ≤ n →
      (∀ s t, matchChunkFrom goos true chunk s ≠ .ok t) ∧
      (∀ negated r s isMatch nrange t,
        matchClass goos true negated r s isMatch nrange chunk ≠ .ok t) := by
  induction n using Nat.strong_induction_on with
  | _ n ih =>
    intro chunk hlen
    cases chunk with
    | nil =>
      constructor
      · intro s t; simp [matchChunkFrom]
      · intro negated r s isMatch nrange t; simp [matchClass]
    | cons c chunk =>
      have hrec : ∀ ch : Str, ch.length ≤ chunk.length →
          (∀ s t, matchChunkFrom goos true ch s ≠ .ok t) ∧
          (∀ negated r s isMatch nrange t,
            matchClass goos true negated r s isMatch nrange ch ≠ .ok t) :=
        fun ch hch => ih ch.length (by simp at hlen; omega) ch (Nat.le_refl _)
      constructor
      · intro s t
        unfold matchChunkFrom
        simp only [Bool.true_or, if_true]
        repeat' split
        all_goals first
          | (intro h; cases h)
          | exact (hrec _ (by simp)).1 _ _
          | exact (hrec _ (by simp)).2 _ _ _ _ _ _
      · intro negated r s isMatch nrange t
        unfold matchClass
        repeat' split
        all_goals first
          | (intro h; cases h)
          | exact (hrec _ (by simp)).1 _ _
          | exact (hrec _ (by simp)).2 _ _ _ _ _ _

theorem matchChunkFrom_failed_ne_ok (goos : GOOS) (chunk s t : Str) :
    matchChunkFrom goos true chunk s ≠ .ok t :=
  (matchChunk_failed_aux goos chunk.length chunk (Nat.le_refl _)).1 s t

/-- A non-empty chunk never matches the empty name. -/
theorem matchChunk_nil_ne_ok (goos : GOOS) (chunk t : Str) (h : chunk ≠ []) :
    matchChunk goos chunk [] ≠ .ok t := by
  cases chunk with
  | nil => exact absurd rfl h
  | cons c chunk =>
    unfold matchChunk
    unfold matchChunkFrom
    simp only [List.isEmpty_nil, Bool.or_true, if_true, Bool.true_or]
    repeat' split
    all_goals first
      | (intro h; cases h)
      | exact matchChunkFrom_failed_ne_ok _ _ _ _
      | exact (matchChunk_failed_aux goos _ _ (Nat.le_refl _)).2 _ _ _ _ _ _

theorem dropWhile_star_of_exists (p : Str) (h : ∃ c ∈ p, c ≠ '*') :
    ∃ c cs, (p.dropWhile fun c => decide (c = '*')) = c :: cs ∧ c ≠ '*' := by
  induction p with
  | nil => simp at h
  | cons a p ih =>
    by_cases ha : a = '*'
    · have h' : ∃ c ∈ p, c ≠ '*' := by
        obtain ⟨c, hc, hne⟩ := h
        rcases List.mem_cons.mp hc with e | e
        · exact absurd (e.trans ha) hne
        · exact ⟨c, e, hne⟩
      obtain ⟨c, cs, hcs, hne⟩ := ih h'
      exact ⟨c, cs, by simp [List.dropWhile_cons, ha, hcs], hne⟩
    · exact ⟨a, p, by simp [List.dropWhile_cons, ha], ha⟩

theorem scanChunk_chunk_ne_nil (goos : GOOS) (p : Str) (h : ∃ c ∈ p, c ≠ '*') :
    (scanChunk goos p).2.1 ≠ [] := by
  obtain ⟨c, cs, hcs, hne⟩ := dropWhile_star_of_exists p h
  unfold scanChunk
  simp only [hcs]
  unfold scanSplit
  simp only [hne, false_and, if_false]
  repeat' split
  all_goals simp

/-- A pattern with a character other than `*` does not match the empty name. -/
theorem filepathMatch_nil_name (goos : GOOS) (p : Str) (h : ∃ c ∈ p, c ≠ '*') :
    filepathMatch goos p [] = false := by
  have hp : p ≠ [] := by
    rintro rfl
    simp at h
  have hchunk := scanChunk_chunk_ne_nil goos p h
  have hempty : (scanChunk goos p).2.1.isEmpty = false := by
    cases hc : (scanChunk goos p).2.1 with
    | nil => exact absurd hc hchunk
    | cons a l => rfl
  have hok := matchChunk_nil_ne_ok goos (scanChunk goos p).2.1
  unfold filepathMatch
  rw [matchLoop]
  simp only [hp, if_false, hempty, Bool.and_false]
  cases hm : matchChunk goos (scanChunk goos p).2.1 [] with
  | ok t => exact absurd hm (hok t hchunk)
  | bad => simp
  | fail =>
    cases (scanChunk goos p).1 <;> simp [starLoop]

/-- The empty pattern matches the empty name only. -/
theorem filepathMatch_nil_pattern (goos : GOOS) (name : Str) :
    filepathMatch goos [] name = name.isEmpty := by
  simp [filepathMatch, matchLoop]

theorem matchChunk_literal (goos : GOOS) (chunk s : Str)
    (h : ∀ c ∈ chunk, c ≠ '[' ∧ c ≠ '?' ∧ c ≠ '\\') :
    matchChunk goos chunk s =
      if stringsHasPrefix s chunk then .ok (s.drop chunk.length) else .fail :=
  matchChunkFrom_literal goos chunk s h

theorem stringsHasPrefix_self (s : Str) : stringsHasPrefix s s = true := by
  rw [stringsHasPrefix_iff]

theorem scanSplit_of_no_star (goos : GOOS) (inrange : Bool) (chunk : Str)
    (h : ∀ c ∈ chunk, c ≠ '*' ∧ c ≠ '\\') : scanSplit goos inrange chunk = (chunk, []) := by
  induction chunk generalizing inrange with
  | nil => rfl
  | cons c chunk ih =>
    have hc := h c (List.mem_cons_self c chunk)
    have ht : ∀ x ∈ chunk, x ≠ '*' ∧ x ≠ '\\' := fun x hx => h x (List.mem_cons_of_mem c hx)
    unfold scanSplit
    simp [hc.1, hc.2, ih _ ht]

theorem dropWhile_star_of_no_star (chunk : Str) (h : '*' ∉ chunk) :
    (chunk.dropWhile fun c => decide (c = '*')) = chunk := by
  cases chunk with
  | nil => rfl
  | cons c chunk =>
    have hc : c ≠ '*' := fun e => h (by simp [e])
    simp [List.dropWhile_cons, hc]

theorem scanChunk_star_literal (goos : GOOS) (chunk : Str)
    (h : ∀ c ∈ chunk, c ≠ '*' ∧ c ≠ '\\') :
    scanChunk goos ('*' :: chunk) = (true, chunk, []) := by
  have hstar : '*' ∉ chunk := fun hm => (h _ hm).1 rfl
  simp [scanChunk, List.dropWhile_cons, dropWhile_star_of_no_star chunk hstar,
    scanSplit_of_no_star goos false chunk h]

/-- One more round of the retry loop of `Match`: a candidate that leaves text
behind the last chunk is passed over. -/
theorem starLoop_literal_step (goos : GOOS) (chunk : Str)
    (h : ∀ c ∈ chunk, c ≠ '[' ∧ c ≠ '?' ∧ c ≠ '\\') (c : Char)
    (s : Str) (hc : c ≠ Separator goos) (hlen : chunk.length < s.length) :
    starLoop goos chunk true (c :: s) = starLoop goos chunk true s := by
  rw [starLoop]
  simp only [hc, if_false]
  rw [matchChunk_literal goos chunk s h]
  have hdrop : (s.drop chunk.length).isEmpty = false := by
    cases hd : s.drop chunk.length with
    | nil =>
      have := congrArg List.length hd
      simp at this
      omega
    | cons a l => rfl
  by_cases hp : stringsHasPrefix s chunk = true
  · simp [hp, hdrop]
  · simp [hp]

/-- The retry loop of `Match` finds a literal last chunk at the end of any
non-empty separator-free text. -/
theorem starLoop_literal (goos : GOOS) (chunk : Str)
    (h : ∀ c ∈ chunk, c ≠ '[' ∧ c ≠ '?' ∧ c ≠ '\\') (n : Str)
    (hn : n ≠ []) (hsep : Separator goos ∉ n) :
    starLoop goos chunk true (n ++ chunk) = some [] := by
  induction n with
  | nil => exact absurd rfl hn
  | cons c n ih =>
    have hc : c ≠ Separator goos := fun e => hsep (by simp [e])
    have hsep' : Separator goos ∉ n := fun e => hsep (List.mem_cons_of_mem c e)
    cases n with
    | nil =>
      rw [List.cons_append, List.nil_append, starLoop]
      simp only [hc, if_false]
      rw [matchChunk_literal goos chunk chunk h]
      simp [stringsHasPrefix_self]
    | cons d n =>
      rw [List.cons_append, starLoop_literal_step goos chunk h c _ hc (by simp; omega)]
      exact ih (by simp) hsep'

/-- The pattern `*` followed by literal text matches every name that ends in
that text and has no separator before it. -/
theorem filepathMatch_star_literal (goos : GOOS) (chunk : Str)
    (h : ∀ c ∈ chunk, c ≠ '[' ∧ c ≠ '?' ∧ c ≠ '\\')
    (hstar : '*' ∉ chunk) (hne : chunk ≠ []) (n : Str) (hsep : Separator goos ∉ n) :
    filepathMatch goos ('*' :: chunk) (n ++ chunk) = true := by
  have hempty : chunk.isEmpty = false := by
    cases chunk with
    | nil => exact absurd rfl hne
    | cons a l => rfl
  have hscan : ∀ c ∈ chunk, c ≠ '*' ∧ c ≠ '\\' :=
    fun c hc => ⟨fun e => hstar (e ▸ hc), (h c hc).2.2⟩
  unfold filepathMatch
  rw [matchLoop]
  simp only [scanChunk_star_literal goos chunk hscan, hempty, Bool.and_false]
  rw [matchChunk_literal goos chunk _ h]
  cases n with
  | nil =>
    simp [stringsHasPrefix_self, matchLoop]
  | cons c n =>
    have hloop := starLoop_literal goos chunk h (c :: n) (by simp) hsep
    have hdrop : ((c :: n ++ chunk).drop chunk.length).isEmpty = false := by
      cases hd : (c :: n ++ chunk).drop chunk.length with
      | nil =>
        have := congrArg List.length hd
        simp at this
        omega
      | cons a l => rfl
    rw [List.cons_append] at hloop hdrop
    by_cases hp : stringsHasPrefix (c :: (n ++ chunk)) chunk = true
    · simp [hp, hdrop, hloop, matchLoop]
    · simp [hp, hloop, matchLoop]

/-! ## Lemmas: where the platform's separators fit the path -/

/-- A path whose last component, cut at the separators of the platform
itself, begins with `.` is not synced under any mapping. -/
theorem dot_name_not_synced (goos : GOOS) (mapping : Mapping) (dir name : Str)
    (hdir : dir = [] ∨ ∃ d c, dir = d ++ [c] ∧ isPathSeparator goos c = true)
    (hname : ∀ c ∈ name, isPathSeparator goos c = false) :
    fileShouldBeSynced goos (dir ++ '.' :: name) mapping = false := by
  have hsplit : filepathSplit goos (dir ++ '.' :: name) = (dir, '.' :: name) := by
    apply filepathSplit_append goos _ _ hdir
    intro c hc
    rcases List.mem_cons.mp hc with rfl | hc
    · cases goos <;> decide
    · exact hname c hc
  simp [fileShouldBeSynced, isDotFile, hsplit, stringsHasPrefix]

/-- On Windows the pattern `*.css` matches every path that ends in `.css`,
whatever directories come before the file name: the rewritten path holds no
`\`, the separator there. -/
theorem star_css_on_windows (pre : Str) :
    patternMatchtesFilepath .windows "*.css".toList (pre ++ ".css".toList) = true := by
  rw [patternMatchtesFilepath_of_no_slash _ _ _ (by decide), replaceBackslashes_append]
  have hcss : replaceBackslashes ".css".toList = ".css".toList := by decide
  have hpat : ("*.css".toList : Str) = '*' :: ".css".toList := by decide
  rw [hcss, hpat]
  exact filepathMatch_star_literal .windows ".css".toList (by decide) (by decide) (by decide) _
    (replaceBackslashes_no_backslash pre)

/-! ## Lemmas: watch list and scan -/

theorem walkCallback_eq (os : World) (index : Nat) (mapping : Mapping) (w : FileWatchList)
    (path : Str) (fileInfo : FileInfo) :
    walkCallback os index mapping w path fileInfo =
      if fileInfo.IsDir = false ∧ fileShouldBeSynced os.goos (os.filepathAbs path) mapping = true then
        (generateSha256HashForFile os (os.filepathAbs path)).map fun fileHash =>
          storeWatch
            (watchKey index
              (os.filepathJoin mapping.DestinationRoot (os.filepathRel mapping.SourceRoot path)))
            (refreshedWatcher
              (lookupWatch
                (watchKey index
                  (os.filepathJoin mapping.DestinationRoot
                    (os.filepathRel mapping.SourceRoot path))) w)
              path (os.filepathAbs path)
              (os.filepathJoin mapping.DestinationRoot (os.filepathRel mapping.SourceRoot path))
              fileHash fileInfo.ModTime) w
      else some w := by
  unfold walkCallback refreshedWatcher
  cases hd : fileInfo.IsDir <;> cases hf : fileShouldBeSynced os.goos (os.filepathAbs path) mapping <;>
    simp [hf]
  cases generateSha256HashForFile os (os.filepathAbs path) <;> rfl

theorem refreshedWatcher_alive (found : Option WatchedFile) (p a d h : Str) (t : Nat) :
    (refreshedWatcher found p a d h t).Alive = true := rfl

theorem refreshedWatcher_hash (found : Option WatchedFile) (p a d h : Str) (t : Nat) :
    (refreshedWatcher found p a d h t).Hash = h := by
  unfold refreshedWatcher
  simp only
  split <;> simp_all

theorem refreshedWatcher_same_hash (e : WatchedFile) (p a d : Str) (t : Nat) :
    refreshedWatcher (some e) p a d e.Hash t = { e with LastChanged := t, Alive := true } := by
  simp [refreshedWatcher]

theorem mem_storeWatch_self (key : Str) (v : WatchedFile) (w : FileWatchList) :
    (key, v) ∈ storeWatch key v w := by
  induction w with
  | nil => simp [storeWatch]
  | cons kv w ih =>
    obtain ⟨k, e⟩ := kv
    unfold storeWatch
    by_cases hk : k = key
    · simp [hk]
    · simp [hk, ih]

theorem mem_storeWatch_of_ne (key : Str) (v : WatchedFile) (w : FileWatchList) (k : Str)
    (e : WatchedFile) (hk : k ≠ key) : (k, e) ∈ storeWatch key v w ↔ (k, e) ∈ w := by
  induction w with
  | nil =>
    simp [storeWatch, hk]
  | cons kv w ih =>
    obtain ⟨k', e'⟩ := kv
    unfold storeWatch
    by_cases hk' : k' = key
    · subst hk'
      have : k ≠ k' := hk
      simp [this]
    · simp [hk', ih]

theorem mem_storeWatch (key : Str) (v : WatchedFile) (w : FileWatchList) (k : Str)
    (e : WatchedFile) (h : (k, e) ∈ storeWatch key v w) : (k, e) = (key, v) ∨ (k, e) ∈ w := by
  induction w with
  | nil => simpa [storeWatch] using h
  | cons kv w ih =>
    obtain ⟨k', e'⟩ := kv
    unfold storeWatch at h
    by_cases hk' : k' = key
    · simp only [hk', if_true, List.mem_cons] at h
      rcases h with h | h
      · exact Or.inl h
      · exact Or.inr (List.mem_cons_of_mem _ h)
    · simp only [hk', if_false, List.mem_cons] at h
      rcases h with h | h
      · exact Or.inr (h ▸ List.mem_cons_self _ _)
      · rcases ih h with h | h
        · exact Or.inl h
        · exact Or.inr (List.mem_cons_of_mem _ h)

theorem lookupWatch_mem (key : Str) (w : FileWatchList) (e : WatchedFile)
    (h : lookupWatch key w = some e) : (key, e) ∈ w := by
  induction w with
  | nil => simp [lookupWatch] at h
  | cons kv w ih =>
    obtain ⟨k', e'⟩ := kv
    unfold lookupWatch at h
    by_cases hk' : k' = key
    · simp only [hk', if_true, Option.some.injEq] at h
      simp [hk', h]
    · simp only [hk', if_false] at h
      exact List.mem_cons_of_mem _ (ih h)

theorem lookupWatch_isSome_of_mem (key : Str) (w : FileWatchList) (e : WatchedFile)
    (h : (key, e) ∈ w) : ∃ e', lookupWatch key w = some e' := by
  induction w with
  | nil => simp at h
  | cons kv w ih =>
    obtain ⟨k', e'⟩ := kv
    unfold lookupWatch
    by_cases hk' : k' = key
    · exact ⟨e', by simp [hk']⟩
    · have : (key, e) ∈ w := by
        rcases List.mem_cons.mp h with h | h
        · exact absurd (congrArg Prod.fst h).symm hk'
        · exact h
      simpa [hk'] using ih this

theorem markAndSweepWatchList_cons_alive (k : Str) (e : WatchedFile) (w : FileWatchList)
    (h : e.Alive = true) :
    markAndSweepWatchList ((k, e) :: w) =
      ((k, { e with Alive := false }) :: (markAndSweepWatchList w).1,
        (markAndSweepWatchList w).2) := by
  simp [markAndSweepWatchList, h]

theorem markAndSweepWatchList_cons_dead (k : Str) (e : WatchedFile) (w : FileWatchList)
    (h : e.Alive = false) :
    markAndSweepWatchList ((k, e) :: w) =
      ((markAndSweepWatchList w).1,
        Effect.osRemove e.Destination :: (markAndSweepWatchList w).2) := by
  simp [markAndSweepWatchList, h]

theorem mem_markAndSweepWatchList (w : FileWatchList) (k : Str) (e' : WatchedFile) :
    (k, e') ∈ (markAndSweepWatchList w).1 ↔
      ∃ e, (k, e) ∈ w ∧ e.Alive = true ∧ e' = { e with Alive := false } := by
  induction w with
  | nil => simp [markAndSweepWatchList]
  | cons kv w ih =>
    obtain ⟨k0, e0⟩ := kv
    cases ha : e0.Alive with
    | true =>
      rw [markAndSweepWatchList_cons_alive k0 e0 w ha]
      simp only [List.mem_cons, ih]
      constructor
      · rintro (h | ⟨e, he, hal, rfl⟩)
        · obtain ⟨rfl, rfl⟩ := Prod.mk.inj h
          exact ⟨e0, Or.inl rfl, ha, rfl⟩
        · exact ⟨e, Or.inr he, hal, rfl⟩
      · rintro ⟨e, he | he, hal, rfl⟩
        · obtain ⟨rfl, rfl⟩ := Prod.mk.inj he
          exact Or.inl rfl
        · exact Or.inr ⟨e, he, hal, rfl⟩
    | false =>
      rw [markAndSweepWatchList_cons_dead k0 e0 w ha]
      simp only [List.mem_cons, ih]
      constructor
      · rintro ⟨e, he, hal, rfl⟩
        exact ⟨e, Or.inr he, hal, rfl⟩
      · rintro ⟨e, he | he, hal, rfl⟩
        · obtain ⟨rfl, rfl⟩ := Prod.mk.inj he
          rw [ha] at hal
          exact absurd hal (by decide)
        · exact ⟨e, he, hal, rfl⟩

theorem mem_markAndSweepWatchList_effects (w : FileWatchList) (x : Effect) :
    x ∈ (markAndSweepWatchList w).2 ↔
      ∃ k e, (k, e) ∈ w ∧ e.Alive = false ∧ x = Effect.osRemove e.Destination := by
  induction w with
  | nil => simp [markAndSweepWatchList]
  | cons kv w ih =>
    obtain ⟨k0, e0⟩ := kv
    cases ha : e0.Alive with
    | true =>
      rw [markAndSweepWatchList_cons_alive k0 e0 w ha]
      simp only [ih, List.mem_cons]
      constructor
      · rintro ⟨k, e, he, hal, rfl⟩
        exact ⟨k, e, Or.inr he, hal, rfl⟩
      · rintro ⟨k, e, he | he, hal, rfl⟩
        · obtain ⟨rfl, rfl⟩ := Prod.mk.inj he
          rw [ha] at hal
          exact absurd hal (by decide)
        · exact ⟨k, e, he, hal, rfl⟩
    | false =>
      rw [markAndSweepWatchList_cons_dead k0 e0 w ha]
      simp only [ih, List.mem_cons]
      constructor
      · rintro (rfl | ⟨k, e, he, hal, rfl⟩)
        · exact ⟨k0, e0, Or.inl rfl, ha, rfl⟩
        · exact ⟨k, e, Or.inr he, hal, rfl⟩
      · rintro ⟨k, e, he | he, hal, rfl⟩
        · obtain ⟨rfl, rfl⟩ := Prod.mk.inj he
          exact Or.inl rfl
        · exact Or.inr ⟨k, e, he, hal, rfl⟩

theorem mem_copyAll (os : World) (w : FileWatchList) (k : Str) (e' : WatchedFile) :
    (k, e') ∈ (copyAll os w).1 ↔ ∃ e, (k, e) ∈ w ∧ e' = (doCopy os e).1 := by
  induction w with
  | nil => simp [copyAll]
  | cons kv w ih =>
    obtain ⟨k0, e0⟩ := kv
    unfold copyAll
    simp only [List.mem_cons, ih]
    constructor
    · rintro (h | ⟨e, he, rfl⟩)
      · obtain ⟨rfl, rfl⟩ := Prod.mk.inj h
        exact ⟨e0, Or.inl rfl, rfl⟩
      · exact ⟨e, Or.inr he, rfl⟩
    · rintro ⟨e, he | he, rfl⟩
      · obtain ⟨rfl, rfl⟩ := Prod.mk.inj he
        exact Or.inl rfl
      · exact Or.inr ⟨e, he, rfl⟩

theorem mem_copyAll_effects (os : World) (w : FileWatchList) (x : Effect) :
    x ∈ (copyAll os w).2 ↔ ∃ k e, (k, e) ∈ w ∧ x ∈ (doCopy os e).2 := by
  induction w with
  | nil => simp [copyAll]
  | cons kv w ih =>
    obtain ⟨k0, e0⟩ := kv
    unfold copyAll
    simp only [List.mem_append, ih, List.mem_cons]
    constructor
    · rintro (h | ⟨k, e, he, hx⟩)
      · exact ⟨k0, e0, Or.inl rfl, h⟩
      · exact ⟨k, e, Or.inr he, hx⟩
    · rintro ⟨k, e, he | he, hx⟩
      · obtain ⟨rfl, rfl⟩ := Prod.mk.inj he
        exact Or.inl hx
      · exact Or.inr ⟨k, e, he, hx⟩

theorem doCopy_fields (os : World) (e : WatchedFile) :
    (doCopy os e).1.Alive = e.Alive ∧ (doCopy os e).1.Destination = e.Destination ∧
      (doCopy os e).1.AbsolutePath = e.AbsolutePath ∧ (doCopy os e).1.Hash = e.Hash := by
  unfold doCopy
  split
  · split
    · split <;> simp
    · simp
  · simp

theorem observedEntries_cons (os : World) (index : Nat) (mapping : Mapping)
    (x : Str × FileInfo) (rest : List (Str × FileInfo)) :
    observedEntries os index mapping (x :: rest) =
      observedEntries os index mapping [x] ++ observedEntries os index mapping rest := by
  obtain ⟨path, fileInfo⟩ := x
  simp only [observedEntries]
  split <;> simp

/-- A property of the watch list that every store of an observed file keeps is
kept by the walk callback. -/
theorem walkCallback_invariant (os : World) (index : Nat) (mapping : Mapping)
    (Inv : FileWatchList → Prop) (S : List (Str × Option Str))
    (hstep : ∀ w key h p a d t, Inv w → (key, some h) ∈ S →
      Inv (storeObserved w key h p a d t))
    (w w' : FileWatchList) (path : Str) (fileInfo : FileInfo)
    (hsub : observedEntries os index mapping [(path, fileInfo)] ⊆ S) (hinv : Inv w)
    (h : walkCallback os index mapping w path fileInfo = some w') : Inv w' := by
  rw [walkCallback_eq] at h
  by_cases hacc : fileInfo.IsDir = false ∧
      fileShouldBeSynced os.goos (os.filepathAbs path) mapping = true
  · simp only [hacc, and_self, if_true] at h
    cases hh : generateSha256HashForFile os (os.filepathAbs path) with
    | none => simp [hh] at h
    | some fileHash =>
      simp only [hh, Option.map_some', Option.some.injEq] at h
      subst h
      apply hstep _ _ _ _ _ _ _ hinv
      apply hsub
      simp [observedEntries, hacc, hh]
  · simp only [hacc, if_false, Option.some.injEq] at h
    exact h ▸ hinv

theorem walkEntries_invariant (os : World) (index : Nat) (mapping : Mapping)
    (Inv : FileWatchList → Prop) (S : List (Str × Option Str))
    (hstep : ∀ w key h p a d t, Inv w → (key, some h) ∈ S →
      Inv (storeObserved w key h p a d t))
    (entries : List (Str × FileInfo)) (w w' : FileWatchList)
    (hsub : observedEntries os index mapping entries ⊆ S) (hinv : Inv w)
    (h : walkEntries os index mapping entries w = some w') : Inv w' := by
  induction entries generalizing w with
  | nil =>
    simp only [walkEntries, Option.some.injEq] at h
    exact h ▸ hinv
  | cons x rest ih =>
    obtain ⟨path, fileInfo⟩ := x
    rw [observedEntries_cons] at hsub
    unfold walkEntries at h
    cases hc : walkCallback os index mapping w path fileInfo with
    | none => simp [hc] at h
    | some w1 =>
      simp only [hc] at h
      exact ih w1 (fun x hx => hsub (List.mem_append_right _ hx))
        (walkCallback_invariant os index mapping Inv S hstep w w1 path fileInfo
          (fun x hx => hsub (List.mem_append_left _ hx)) hinv hc) h

theorem scanMappings_invariant (os : World) (Inv : FileWatchList → Prop)
    (S : List (Str × Option Str))
    (hstep : ∀ w key h p a d t, Inv w → (key, some h) ∈ S →
      Inv (storeObserved w key h p a d t))
    (mappings : List Mapping) (index : Nat) (w w' : FileWatchList)
    (hsub : observedFrom os index mappings ⊆ S) (hinv : Inv w)
    (h : scanMappings os index mappings w = some w') : Inv w' := by
  induction mappings generalizing index w with
  | nil =>
    simp only [scanMappings, Option.some.injEq] at h
    exact h ▸ hinv
  | cons mapping rest ih =>
    unfold observedFrom at hsub
    unfold scanMappings at h
    cases hb : buildFileWatchListForDirectory os index mapping w with
    | none => simp [hb] at h
    | some w1 =>
      simp only [hb] at h
      have hw1 : Inv w1 := by
        unfold buildFileWatchListForDirectory at hb
        split at hb
        · simp at hb
        · exact walkEntries_invariant os index mapping Inv S hstep _ w w1
            (fun x hx => hsub (List.mem_append_left _ hx)) hinv hb
      exact ih (index + 1) w1 (fun x hx => hsub (List.mem_append_right _ hx)) hw1 h

/-- A key that no accepted file of the scan maps to keeps its entries. -/
theorem scanMappings_untouched (os : World) (mappings : List Mapping) (index : Nat)
    (w w' : FileWatchList) (k : Str)
    (hk : k ∉ (observedFrom os index mappings).map Prod.fst)
    (h : scanMappings os index mappings w = some w') :
    ∀ e, (k, e) ∈ w' ↔ (k, e) ∈ w := by
  refine scanMappings_invariant os (fun v => ∀ e, (k, e) ∈ v ↔ (k, e) ∈ w)
    (observedFrom os index mappings) ?_ mappings index w w' (fun _ hx => hx) (fun _ => Iff.rfl) h
  intro v key fh p a d t hinv hmem e
  have hne : k ≠ key := by
    rintro rfl
    exact hk (List.mem_map.mpr ⟨(k, some fh), hmem, rfl⟩)
  unfold storeObserved
  rw [mem_storeWatch_of_ne _ _ _ _ _ hne]
  exact hinv e

/-- An entry marked alive under a key stays, or is replaced by one marked
alive, throughout a scan. -/
theorem storeObserved_keeps_alive (k : Str) (w : FileWatchList) (key fh p a d : Str) (t : Nat)
    (h : ∃ e, (k, e) ∈ w ∧ e.Alive = true) :
    ∃ e, (k, e) ∈ storeObserved w key fh p a d t ∧ e.Alive = true := by
  unfold storeObserved
  by_cases hk : k = key
  · subst hk
    exact ⟨_, mem_storeWatch_self _ _ _, refreshedWatcher_alive _ _ _ _ _ _⟩
  · obtain ⟨e, he, hal⟩ := h
    exact ⟨e, (mem_storeWatch_of_ne _ _ _ _ _ hk).mpr he, hal⟩

theorem walkEntries_observed_alive (os : World) (index : Nat) (mapping : Mapping)
    (entries : List (Str × FileInfo)) (w w' : FileWatchList) (k : Str)
    (hk : k ∈ (observedEntries os index mapping entries).map Prod.fst)
    (h : walkEntries os index mapping entries w = some w') :
    ∃ e, (k, e) ∈ w' ∧ e.Alive = true := by
  induction entries generalizing w with
  | nil => simp [observedEntries] at hk
  | cons x rest ih =>
    obtain ⟨path, fileInfo⟩ := x
    unfold walkEntries at h
    cases hc : walkCallback os index mapping w path fileInfo with
    | none => simp [hc] at h
    | some w1 =>
      simp only [hc] at h
      rw [observedEntries_cons, List.map_append, List.mem_append] at hk
      by_cases hrest : k ∈ (observedEntries os index mapping rest).map Prod.fst
      · exact ih w1 hrest h
      · have hhead : k ∈ (observedEntries os index mapping [(path, fileInfo)]).map Prod.fst :=
          hk.resolve_right hrest
        have hw1 : ∃ e, (k, e) ∈ w1 ∧ e.Alive = true := by
          rw [walkCallback_eq] at hc
          by_cases hacc : fileInfo.IsDir = false ∧
              fileShouldBeSynced os.goos (os.filepathAbs path) mapping = true
          · simp only [hacc, and_self, if_true] at hc
            simp only [observedEntries, hacc, and_self, if_true, List.map_cons, List.map_nil,
              List.mem_singleton] at hhead
            cases hh : generateSha256HashForFile os (os.filepathAbs path) with
            | none => simp [hh] at hc
            | some fileHash =>
              simp only [hh, Option.map_some', Option.some.injEq] at hc
              subst hc
              subst hhead
              exact ⟨_, mem_storeWatch_self _ _ _, refreshedWatcher_alive _ _ _ _ _ _⟩
          · simp [observedEntries, hacc] at hhead
        exact walkEntries_invariant os index mapping
          (fun v => ∃ e, (k, e) ∈ v ∧ e.Alive = true)
          (observedEntries os index mapping rest)
          (fun v key fh p a d t hv _ => storeObserved_keeps_alive k v key fh p a d t hv)
          rest w1 w' (fun _ hx => hx) hw1 h

/-- Every key that an accepted file of the scan maps to has an entry marked
alive when the scan is over. -/
theorem scanMappings_observed_alive (os : World) (mappings : List Mapping) (index : Nat)
    (w w' : FileWatchList) (k : Str)
    (hk : k ∈ (observedFrom os index mappings).map Prod.fst)
    (h : scanMappings os index mappings w = some w') :
    ∃ e, (k, e) ∈ w' ∧ e.Alive = true := by
  induction mappings generalizing index w with
  | nil => simp [observedFrom] at hk
  | cons mapping rest ih =>
    unfold scanMappings at h
    cases hb : buildFileWatchListForDirectory os index mapping w with
    | none => simp [hb] at h
    | some w1 =>
      simp only [hb] at h
      unfold observedFrom at hk
      rw [List.map_append, List.mem_append] at hk
      by_cases hrest : k ∈ (observedFrom os (index + 1) rest).map Prod.fst
      · exact ih (index + 1) w1 hrest h
      · have hhead := hk.resolve_right hrest
        have hw1 : ∃ e, (k, e) ∈ w1 ∧ e.Alive = true := by
          unfold buildFileWatchListForDirectory at hb
          split at hb
          · simp at hb
          · exact walkEntries_observed_alive os index mapping _ w w1 k hhead hb
        exact scanMappings_invariant os (fun v => ∃ e, (k, e) ∈ v ∧ e.Alive = true)
          (observedFrom os (index + 1) rest)
          (fun v key fh p a d t hv _ => storeObserved_keeps_alive k v key fh p a d t hv)
          rest (index + 1) w1 w' (fun _ hx => hx) hw1 h

theorem handleTick_eq_some (os : World) (config : SyncConfig) (w w' : FileWatchList)
    (fx : List Effect) (h : handleTick os config w = some (w', fx)) :
    ∃ v, scanMappings os 0 config.Mappings (markAndSweepWatchList w).1 = some v ∧
      w' = (copyAll os v).1 ∧ fx = (markAndSweepWatchList w).2 ++ (copyAll os v).2 := by
  unfold handleTick scanAndCoppyMappedDirs at h
  cases hs : scanMappings os 0 config.Mappings (markAndSweepWatchList w).1 with
  | none => simp [hs] at h
  | some v =>
    simp only [hs, Option.map_some', Option.some.injEq, Prod.mk.injEq] at h
    exact ⟨v, rfl, h.1.symm, h.2.symm⟩

/-- After `doCopy` an entry whose source exists needs no sync, unless one of its
paths is empty. -/
theorem doCopy_settled (os : World) (e : WatchedFile)
    (h : doesDirOrFileExist os e.AbsolutePath = true) :
    (doCopy os e).1.NeedsSync = false ∨ (doCopy os e).1.AbsolutePath = [] ∨
      (doCopy os e).1.Destination = [] := by
  unfold doCopy
  cases hn : e.NeedsSync with
  | false => simp [hn]
  | true =>
    by_cases hp : e.AbsolutePath ≠ [] ∧ e.Destination ≠ []
    · simp [h, hp]
    · simp only [h, if_true, hp, if_false]
      by_cases ha : e.AbsolutePath = []
      · exact Or.inr (Or.inl ha)
      · by_cases hd : e.Destination = []
        · exact Or.inr (Or.inr hd)
        · exact absurd ⟨ha, hd⟩ hp

/-- The step `doCopy` sets `NeedsSync` on no entry. -/
theorem doCopy_needsSync (os : World) (e : WatchedFile)
    (h : (doCopy os e).1.NeedsSync = true) : e.NeedsSync = true := by
  unfold doCopy at h
  cases hn : e.NeedsSync with
  | true => rfl
  | false => simp [hn] at h

/-- An entry that needs no sync, or has an empty path, causes no file-system
call in `doCopy`. -/
theorem doCopy_no_effect (os : World) (e : WatchedFile)
    (h : e.NeedsSync = false ∨ e.AbsolutePath = [] ∨ e.Destination = []) :
    (doCopy os e).2 = [] := by
  unfold doCopy
  rcases h with h | h | h <;> simp [h]

/-! ## The cycle -/

/-- C1, as stated, fails, on either platform: `src/a.txt` is found in the first
cycle and gone in the second; when the second cycle has finished its watch
entry is still in the registry, only marked not alive, and no file has been
removed. -/
theorem swept_within_one_cycle_claim_fails :
    ("0-dst/a.txt".toList ∈
        (observed (sampleWorld .windows ["src/a.txt".toList] true) sampleConfig).map Prod.fst ∧
      "0-dst/a.txt".toList ∉ (observed (sampleWorld .windows [] true) sampleConfig).map
        Prod.fst ∧
      handleTick (sampleWorld .windows ["src/a.txt".toList] true) sampleConfig [] =
        some ([("0-dst/a.txt".toList, sampleEntry true)],
          [Effect.osMkdirAll "dst/".toList,
            Effect.copyFile "src/a.txt".toList "dst/a.txt".toList false]) ∧
      handleTick (sampleWorld .windows [] true) sampleConfig
          [("0-dst/a.txt".toList, sampleEntry true)] =
        some ([("0-dst/a.txt".toList, sampleEntry false)], [])) ∧
    ("0-dst/a.txt".toList ∈
        (observed (sampleWorld .unix ["src/a.txt".toList] true) sampleConfig).map Prod.fst ∧
      "0-dst/a.txt".toList ∉ (observed (sampleWorld .unix [] true) sampleConfig).map
        Prod.fst ∧
      handleTick (sampleWorld .unix ["src/a.txt".toList] true) sampleConfig [] =
        some ([("0-dst/a.txt".toList, sampleEntry true)],
          [Effect.osMkdirAll "dst/".toList,
            Effect.copyFile "src/a.txt".toList "dst/a.txt".toList false]) ∧
      handleTick (sampleWorld .unix [] true) sampleConfig
          [("0-dst/a.txt".toList, sampleEntry true)] =
        some ([("0-dst/a.txt".toList, sampleEntry false)], [])) := by
  refine ⟨⟨by decide, by decide, by decide, by decide⟩,
    ⟨by decide, by decide, by decide, by decide⟩⟩

/-- C1 (amended): a file that a cycle finds and accepts, and that the next two
cycles do not find under its registry key, still has its watch entry, marked
not alive, when the first of them has finished; when the second has finished
no entry with its key is left in the registry and `os.Remove` has been called
on the destination of its entry. -/
theorem deleted_source_swept_after_two_cycles (config : SyncConfig) (os1 os2 os3 : World)
    (w0 w1 w2 w3 : FileWatchList) (fx1 fx2 fx3 : List Effect) (key : Str)
    (h1 : handleTick os1 config w0 = some (w1, fx1))
    (h2 : handleTick os2 config w1 = some (w2, fx2))
    (h3 : handleTick os3 config w2 = some (w3, fx3))
    (hseen : key ∈ (observed os1 config).map Prod.fst)
    (hgone2 : key ∉ (observed os2 config).map Prod.fst)
    (hgone3 : key ∉ (observed os3 config).map Prod.fst) :
    ∃ e, (key, e) ∈ w1 ∧ e.Alive = true ∧
      (∃ e2, (key, e2) ∈ w2 ∧ e2.Alive = false ∧ e2.Destination = e.Destination) ∧
      (∀ e3, (key, e3) ∉ w3) ∧
      Effect.osRemove e.Destination ∈ fx3 := by
  obtain ⟨v1, hs1, rfl, rfl⟩ := handleTick_eq_some _ _ _ _ _ h1
  obtain ⟨v2, hs2, rfl, rfl⟩ := handleTick_eq_some _ _ _ _ _ h2
  obtain ⟨v3, hs3, rfl, rfl⟩ := handleTick_eq_some _ _ _ _ _ h3
  obtain ⟨e1, he1, hal1⟩ := scanMappings_observed_alive os1 _ 0 _ v1 key hseen hs1
  have hd1 := doCopy_fields os1 e1
  -- the entry after the copies of the first cycle
  have hw1 : (key, (doCopy os1 e1).1) ∈ (copyAll os1 v1).1 :=
    (mem_copyAll os1 v1 key _).mpr ⟨e1, he1, rfl⟩
  have hal1' : (doCopy os1 e1).1.Alive = true := hd1.1.trans hal1
  -- second cycle: unmarked by the sweep, untouched by the scan
  have hsw2 : (key, { (doCopy os1 e1).1 with Alive := false }) ∈
      (markAndSweepWatchList (copyAll os1 v1).1).1 :=
    (mem_markAndSweepWatchList _ _ _).mpr ⟨_, hw1, hal1', rfl⟩
  have hv2 := (scanMappings_untouched os2 _ 0 _ v2 key hgone2 hs2 _).mpr hsw2
  have hw2 := (mem_copyAll os2 v2 key _).mpr ⟨_, hv2, rfl⟩
  have hd2 := doCopy_fields os2 { (doCopy os1 e1).1 with Alive := false }
  -- every entry under the key is marked not alive after the second cycle
  have hdead : ∀ x, (key, x) ∈ (copyAll os2 v2).1 → x.Alive = false := by
    intro x hx
    obtain ⟨y, hy, rfl⟩ := (mem_copyAll os2 v2 key x).mp hx
    have hy' := (scanMappings_untouched os2 _ 0 _ v2 key hgone2 hs2 y).mp hy
    obtain ⟨z, _, _, rfl⟩ := (mem_markAndSweepWatchList _ _ _).mp hy'
    exact (doCopy_fields os2 _).1
  refine ⟨(doCopy os1 e1).1, hw1, hal1', ⟨_, hw2, hd2.1, hd2.2.1⟩, ?_, ?_⟩
  · intro e3 he3
    obtain ⟨y, hy, _⟩ := (mem_copyAll os3 v3 key e3).mp he3
    have hy' := (scanMappings_untouched os3 _ 0 _ v3 key hgone3 hs3 y).mp hy
    obtain ⟨z, hz, hzal, _⟩ := (mem_markAndSweepWatchList _ _ _).mp hy'
    rw [hdead z hz] at hzal
    exact absurd hzal (by decide)
  · apply List.mem_append_left
    rw [mem_markAndSweepWatchList_effects]
    exact ⟨key, _, hw2, hd2.1, by rw [hd2.2.1]⟩

/-- The file `src/a.txt`, found in one cycle and gone in the next two. -/
theorem deleted_source_swept_after_two_cycles_witness :
    ∃ e, (("0-dst/a.txt".toList, e) ∈ [("0-dst/a.txt".toList, sampleEntry true)]) ∧
      e.Alive = true ∧
      (∃ e2, ("0-dst/a.txt".toList, e2) ∈ [("0-dst/a.txt".toList, sampleEntry false)] ∧
        e2.Alive = false ∧ e2.Destination = e.Destination) ∧
      (∀ e3, ("0-dst/a.txt".toList, e3) ∉ ([] : FileWatchList)) ∧
      Effect.osRemove e.Destination ∈ [Effect.osRemove "dst/a.txt".toList] :=
  deleted_source_swept_after_two_cycles sampleConfig
    (sampleWorld .unix ["src/a.txt".toList] true) (sampleWorld .unix [] true)
    (sampleWorld .unix [] true)
    [] [("0-dst/a.txt".toList, sampleEntry true)] [("0-dst/a.txt".toList, sampleEntry false)] []
    [Effect.osMkdirAll "dst/".toList,
      Effect.copyFile "src/a.txt".toList "dst/a.txt".toList false]
    [] [Effect.osRemove "dst/a.txt".toList] "0-dst/a.txt".toList
    (by decide) (by decide) (by decide) (by decide) (by decide) (by decide)

/-- C2: when two consecutive cycles observe the same accepted files with the
same content hashes, each file under one hash, and the source of every entry
found in the first cycle exists when that cycle copies, then the second cycle
calls `copyFile` for no entry; after the first cycle every entry found in it,
with non-empty paths, has `NeedsSync = false`; and the second cycle sets
`NeedsSync` on no entry. -/
theorem unchanged_source_not_copied_again (config : SyncConfig) (os1 os2 : World)
    (w0 w1 w2 : FileWatchList) (fx1 fx2 : List Effect)
    (h1 : handleTick os1 config w0 = some (w1, fx1))
    (h2 : handleTick os2 config w1 = some (w2, fx2))
    (hsame : ∀ x, x ∈ observed os1 config ↔ x ∈ observed os2 config)
    (hone : ∀ k h h', (k, h) ∈ observed os1 config → (k, h') ∈ observed os1 config → h = h')
    (hexists : ∀ k e, (k, e) ∈ w1 → e.Alive = true →
      doesDirOrFileExist os1 e.AbsolutePath = true) :
    (∀ s d f, Effect.copyFile s d f ∉ fx2) ∧
      (∀ k e, (k, e) ∈ w1 → e.Alive = true → e.AbsolutePath ≠ [] → e.Destination ≠ [] →
        e.NeedsSync = false) ∧
      ∀ k e, (k, e) ∈ w2 → e.NeedsSync = true →
        ∃ e1, (k, e1) ∈ w1 ∧ e1.NeedsSync = true := by
  obtain ⟨v1, hs1, rfl, rfl⟩ := handleTick_eq_some _ _ _ _ _ h1
  obtain ⟨v2, hs2, rfl, rfl⟩ := handleTick_eq_some _ _ _ _ _ h2
  -- first scan: an entry marked alive carries the hash of an observation
  have hI1 : ∀ k e, (k, e) ∈ v1 → e.Alive = true → (k, some e.Hash) ∈ observed os1 config := by
    refine scanMappings_invariant os1
      (fun v => ∀ k e, (k, e) ∈ v → e.Alive = true → (k, some e.Hash) ∈ observed os1 config)
      (observed os1 config) ?_ config.Mappings 0 _ v1 (fun _ hx => hx) ?_ hs1
    · intro w key h p a d t hinv hmem k e he hal
      rcases mem_storeWatch _ _ _ _ _ he with heq | hold
      · obtain ⟨rfl, rfl⟩ := Prod.mk.inj heq
        rw [refreshedWatcher_hash]
        exact hmem
      · exact hinv k e hold hal
    · intro k e he hal
      obtain ⟨z, _, _, rfl⟩ := (mem_markAndSweepWatchList _ _ _).mp he
      exact absurd hal (by simp)
  -- what holds of the entries marked alive when the first cycle is over
  have hsettled : ∀ k e, (k, e) ∈ (copyAll os1 v1).1 → e.Alive = true →
      (k, some e.Hash) ∈ observed os1 config ∧
        (e.NeedsSync = false ∨ e.AbsolutePath = [] ∨ e.Destination = []) := by
    intro k e he hal
    have hex := hexists k e he hal
    obtain ⟨y, hy, rfl⟩ := (mem_copyAll os1 v1 k e).mp he
    have hf := doCopy_fields os1 y
    refine ⟨?_, doCopy_settled os1 y (hf.2.2.1 ▸ hex)⟩
    rw [hf.2.2.2]
    exact hI1 k y hy (hf.1 ▸ hal)
  -- second scan: nothing changes but the time stamp and the mark
  have hJ : (∀ k e, (k, e) ∈ v2 → ((k, some e.Hash) ∈ observed os1 config ∧
        (e.NeedsSync = false ∨ e.AbsolutePath = [] ∨ e.Destination = [])) ∧
        (e.NeedsSync = true → ∃ e1, (k, e1) ∈ (copyAll os1 v1).1 ∧ e1.NeedsSync = true)) ∧
      ∀ k h, (k, h) ∈ observed os1 config → ∃ e, (k, e) ∈ v2 := by
    refine scanMappings_invariant os2
      (fun v => (∀ k e, (k, e) ∈ v → ((k, some e.Hash) ∈ observed os1 config ∧
          (e.NeedsSync = false ∨ e.AbsolutePath = [] ∨ e.Destination = [])) ∧
          (e.NeedsSync = true →
            ∃ e1, (k, e1) ∈ (copyAll os1 v1).1 ∧ e1.NeedsSync = true)) ∧
        ∀ k h, (k, h) ∈ observed os1 config → ∃ e, (k, e) ∈ v)
      (observed os1 config) ?_ config.Mappings 0 _ v2 (fun x hx => (hsame x).mpr hx) ?_ hs2
    · intro w key h p a d t hinv hmem
      obtain ⟨e0, he0⟩ := hinv.2 key (some h) hmem
      obtain ⟨e', hlook⟩ := lookupWatch_isSome_of_mem key w e0 he0
      have he' := lookupWatch_mem key w e' hlook
      have hhash : e'.Hash = h :=
        Option.some.inj (hone key _ _ (hinv.1 key e' he').1.1 hmem)
      have hstore : storeObserved w key h p a d t =
          storeWatch key { e' with LastChanged := t, Alive := true } w := by
        unfold storeObserved
        rw [hlook, ← hhash, refreshedWatcher_same_hash]
      rw [hstore]
      constructor
      · intro k e he
        rcases mem_storeWatch _ _ _ _ _ he with heq | hold
        · obtain ⟨rfl, rfl⟩ := Prod.mk.inj heq
          exact hinv.1 k e' he'
        · exact hinv.1 k e hold
      · intro k oh hk
        obtain ⟨e, he⟩ := hinv.2 k oh hk
        by_cases hkk : k = key
        · subst hkk
          exact ⟨_, mem_storeWatch_self _ _ _⟩
        · exact ⟨e, (mem_storeWatch_of_ne _ _ _ _ _ hkk).mpr he⟩
    · constructor
      · intro k e he
        obtain ⟨z, hz, hzal, rfl⟩ := (mem_markAndSweepWatchList _ _ _).mp he
        exact ⟨hsettled k z hz hzal, fun hn => ⟨z, hz, hn⟩⟩
      · intro k oh hk
        obtain ⟨e, he, hal⟩ := scanMappings_observed_alive os1 _ 0 _ v1 k
          (List.mem_map.mpr ⟨(k, oh), hk, rfl⟩) hs1
        exact ⟨_, (mem_markAndSweepWatchList _ _ _).mpr
          ⟨(doCopy os1 e).1, (mem_copyAll os1 v1 k _).mpr ⟨e, he, rfl⟩,
            (doCopy_fields os1 e).1.trans hal, rfl⟩⟩
  refine ⟨?_, ?_, ?_⟩
  · intro s d f hmem
    rcases List.mem_append.mp hmem with hsw | hcp
    · obtain ⟨k, e, _, _, heq⟩ := (mem_markAndSweepWatchList_effects _ _).mp hsw
      cases heq
    · obtain ⟨k, e, he, hx⟩ := (mem_copyAll_effects os2 v2 _).mp hcp
      rw [doCopy_no_effect os2 e (hJ.1 k e he).1.2] at hx
      simp at hx
  · intro k e he hal ha hd
    rcases (hsettled k e he hal).2 with h | h | h
    · exact h
    · exact absurd h ha
    · exact absurd h hd
  · intro k e he hn
    obtain ⟨y, hy, rfl⟩ := (mem_copyAll os2 v2 k e).mp he
    exact (hJ.1 k y hy).2 (doCopy_needsSync os2 y hn)

/-- The file `src/a.txt`, found unchanged in two cycles. -/
theorem unchanged_source_not_copied_again_witness :
    (∀ s d f, Effect.copyFile s d f ∉ ([] : List Effect)) ∧
      (∀ k e, (k, e) ∈ [("0-dst/a.txt".toList, sampleEntry true)] → e.Alive = true →
        e.AbsolutePath ≠ [] → e.Destination ≠ [] → e.NeedsSync = false) ∧
      ∀ k e, (k, e) ∈ [("0-dst/a.txt".toList, sampleEntry true)] → e.NeedsSync = true →
        ∃ e1, (k, e1) ∈ [("0-dst/a.txt".toList, sampleEntry true)] ∧ e1.NeedsSync = true :=
  unchanged_source_not_copied_again sampleConfig
    (sampleWorld .windows ["src/a.txt".toList] true)
    (sampleWorld .windows ["src/a.txt".toList] true)
    [] [("0-dst/a.txt".toList, sampleEntry true)] [("0-dst/a.txt".toList, sampleEntry true)]
    [Effect.osMkdirAll "dst/".toList,
      Effect.copyFile "src/a.txt".toList "dst/a.txt".toList false] []
    (by decide) (by decide) (fun _ => Iff.rfl)
    (by
      intro k h h' hk hk'
      have hobs : observed (sampleWorld .windows ["src/a.txt".toList] true) sampleConfig =
          [("0-dst/a.txt".toList, some "#src/a.txt".toList)] := by decide
      rw [hobs] at hk hk'
      simp only [List.mem_singleton, Prod.mk.injEq] at hk hk'
      rw [hk.2, hk'.2])
    (by
      intro k e he _
      simp only [List.mem_singleton, Prod.mk.injEq] at he
      rw [he.2]
      decide)

/-! ## The file filter and the pattern matcher -/

/-- C3: the dot-file test misses a path written with back slashes on a build
whose separator is `/`.  There `filepath.Split` leaves `G:\aaa\.git` whole, so
`isDotFile` is false and `fileShouldBeSynced` accepts the path under the
include pattern `**/*.*`, which `patternMatchtesFilepath` matches after it has
rewritten the back slashes; on Windows the same call returns false. -/
theorem dot_file_with_backslashes_synced :
    isDotFile .unix "G:\\aaa\\.git".toList = false ∧
      fileShouldBeSynced .unix "G:\\aaa\\.git".toList
        ⟨"src".toList, "dst".toList, "**/*.*".toList, [], []⟩ = true ∧
      fileShouldBeSynced .windows "G:\\aaa\\.git".toList
        ⟨"src".toList, "dst".toList, "**/*.*".toList, [], []⟩ = false := by
  decide

/-- C4: for a path whose file name does not begin with `.`, the file is synced
exactly when it is not ignored (a non-empty ignore pattern that matches) and is
included (an empty include pattern, or one that matches); so a file matching
both patterns is not synced, and with both patterns empty it is synced. -/
theorem fileShouldBeSynced_exclude_then_include (goos : GOOS) (mapping : Mapping)
    (path : Str) (hdot : stringsHasPrefix (filepathSplit goos path).2 ['.'] = false) :
    (fileShouldBeSynced goos path mapping = true ↔
      ¬ (mapping.IgnoredFiles ≠ [] ∧
          patternMatchtesFilepath goos mapping.IgnoredFiles path = true) ∧
        (mapping.IncludedFiles = [] ∨
          patternMatchtesFilepath goos mapping.IncludedFiles path = true)) ∧
    (mapping.IgnoredFiles ≠ [] →
      patternMatchtesFilepath goos mapping.IgnoredFiles path = true →
      patternMatchtesFilepath goos mapping.IncludedFiles path = true →
      fileShouldBeSynced goos path mapping = false) ∧
    (mapping.IgnoredFiles = [] → mapping.IncludedFiles = [] →
      fileShouldBeSynced goos path mapping = true) := by
  have hd : isDotFile goos path = false := by
    have hlit : (".".toList : Str) = ['.'] := rfl
    simp [isDotFile, hlit, hdot]
  refine ⟨?_, ?_, ?_⟩
  · unfold fileShouldBeSynced matchesIgnoredFileConfig matchesIncludedFileConfig
    by_cases hi : mapping.IgnoredFiles = [] <;> by_cases hc : mapping.IncludedFiles = [] <;>
      simp [hd, hi, hc]
  · intro hi hm _
    simp [fileShouldBeSynced, matchesIgnoredFileConfig, hd, hi, hm]
  · intro hi hc
    simp [fileShouldBeSynced, matchesIgnoredFileConfig, matchesIncludedFileConfig, hd, hi, hc]

/-- A style sheet that both the include and the ignore pattern match is not synced. -/
theorem fileShouldBeSynced_exclude_then_include_witness :
    fileShouldBeSynced .unix "G:/aaa/t.tpl.css".toList
        ⟨"src".toList, "dst".toList, "**/*.*".toList, "**/*.css".toList, []⟩ = false :=
  (fileShouldBeSynced_exclude_then_include .unix
    ⟨"src".toList, "dst".toList, "**/*.*".toList, "**/*.css".toList, []⟩
    "G:/aaa/t.tpl.css".toList (by decide)).2.1 (by decide) (by decide) (by decide)

/-- C5, as stated, fails, on either platform: the pattern `a/b*` has the exact
segments `a` and `b*`, the path `a/bc` does not contain `a/b*`, and the matcher
still accepts it, through the glob match of the whole pattern that ends the
function. -/
theorem exact_dir_pattern_claim_fails :
    ('/' ∈ "a/b*".toList ∧
      ∃ seg ∈ stringsSplit '/' "a/b*".toList,
        isDirWildCardPattern seg = false ∧ isFileWildCardPattern seg = false) ∧
    ¬ (patternMatchtesFilepath .windows "a/b*".toList "a/bc".toList = true ↔
        stringsJoin (exactSegments "a/b*".toList) <:+: replaceBackslashes "a/bc".toList ∧
          (isFileWildCardPattern ((stringsSplit '/' "a/b*".toList).getLastD []) = true →
            filepathMatch .windows ((stringsSplit '/' "a/b*".toList).getLastD [])
              (filepathSplit .windows (replaceBackslashes "a/bc".toList)).2 = true)) ∧
    ¬ (patternMatchtesFilepath .unix "a/b*".toList "a/bc".toList = true ↔
        stringsJoin (exactSegments "a/b*".toList) <:+: replaceBackslashes "a/bc".toList ∧
          (isFileWildCardPattern ((stringsSplit '/' "a/b*".toList).getLastD []) = true →
            filepathMatch .unix ((stringsSplit '/' "a/b*".toList).getLastD [])
              (filepathSplit .unix (replaceBackslashes "a/bc".toList)).2 = true)) := by
  refine ⟨⟨by decide, "a".toList, by decide, by decide, by decide⟩, ?_, ?_⟩ <;> decide

/-- C5 (amended): for a pattern with a `/` and at least one segment that is
neither a directory wildcard nor a file wildcard, the matcher accepts a path
exactly when either the rewritten path contains the exact segments joined by
`/` and, if the last segment is a file wildcard, the file name glob-matches it;
or the rewritten path does not contain them and glob-matches the whole
pattern. -/
theorem patternMatchtesFilepath_exact_dir (goos : GOOS) (pattern path : Str)
    (hslash : '/' ∈ pattern)
    (hexact : ∃ seg ∈ stringsSplit '/' pattern,
      isDirWildCardPattern seg = false ∧ isFileWildCardPattern seg = false) :
    (patternMatchtesFilepath goos pattern path = true ↔
      (stringsJoin (exactSegments pattern) <:+: replaceBackslashes path ∧
        (isFileWildCardPattern ((stringsSplit '/' pattern).getLastD []) = true →
          filepathMatch goos ((stringsSplit '/' pattern).getLastD [])
            (filepathSplit goos (replaceBackslashes path)).2 = true)) ∨
      (¬ stringsJoin (exactSegments pattern) <:+: replaceBackslashes path ∧
        filepathMatch goos pattern (replaceBackslashes path) = true)) := by
  have hlen := stringsSplit_length_of_mem '/' pattern hslash
  have hex := (containsExactDirPattern_iff _).mpr hexact
  unfold patternMatchtesFilepath
  simp only [hlen, hex, if_true, getPatternWithoutWildcards_eq]
  rw [← stringsContains_iff]
  unfold exactSegments
  by_cases hc : stringsContains (replaceBackslashes path)
      (stringsJoin ((stringsSplit '/' pattern).filter fun seg =>
        !isDirWildCardPattern seg && !isFileWildCardPattern seg)) = true
  · generalize (stringsSplit '/' pattern).getLastD [] = last
    cases hf : isFileWildCardPattern last <;> simp [hc, hf]
  · simp [hc]

/-- The pattern `modules/samco/css` of the test suite. -/
theorem patternMatchtesFilepath_exact_dir_witness :
    patternMatchtesFilepath .unix "modules/samco/css".toList
      "modules/samco/css/test.css".toList = true := by
  have h := patternMatchtesFilepath_exact_dir .unix "modules/samco/css".toList
    "modules/samco/css/test.css".toList (by decide)
    ⟨"modules".toList, by decide, by decide, by decide⟩
  refine h.mpr (Or.inl ⟨?_, ?_⟩)
  · rw [← stringsContains_iff]
    decide
  · decide

/-- C6: for a pattern with a `/` that begins with `**` and whose segments are
all directory wildcards or file wildcards, the matcher is the glob match of the
last segment against the file name of the rewritten path, the part after its
last `/`, whatever directories precede it. -/
theorem patternMatchtesFilepath_dir_wildcard (goos : GOOS) (pattern path dir name : Str)
    (hslash : '/' ∈ pattern) (hpre : "**".toList <+: pattern)
    (hsegs : ∀ seg ∈ stringsSplit '/' pattern, "**".toList <+: seg ∨ "*.".toList <+: seg)
    (hpath : replaceBackslashes path = dir ++ name)
    (hdir : dir = [] ∨ ∃ d, dir = d ++ ['/'])
    (hname : '/' ∉ name) :
    patternMatchtesFilepath goos pattern path =
      filepathMatch goos ((stringsSplit '/' pattern).getLastD []) name := by
  have hlen := stringsSplit_length_of_mem '/' pattern hslash
  have hex : containsExactDirPattern (stringsSplit '/' pattern) = false := by
    cases h : containsExactDirPattern (stringsSplit '/' pattern) with
    | false => rfl
    | true =>
      obtain ⟨seg, hseg, hd, hf⟩ := (containsExactDirPattern_iff _).mp h
      rcases hsegs seg hseg with h' | h'
      · rw [isDirWildCardPattern, (stringsHasPrefix_iff _ _).mpr h'] at hd
        exact absurd hd (by decide)
      · rw [isFileWildCardPattern, (stringsHasPrefix_iff _ _).mpr h'] at hf
        exact absurd hf (by decide)
  have hdw : isDirWildCardPattern pattern = true := (stringsHasPrefix_iff _ _).mpr hpre
  have hback : '\\' ∉ name := by
    intro h
    apply replaceBackslashes_no_backslash path
    rw [hpath]
    exact List.mem_append_right dir h
  have hsplit : filepathSplit goos (dir ++ name) = (dir, name) := by
    apply filepathSplit_append
    · rcases hdir with h | ⟨d, h⟩
      · exact Or.inl h
      · exact Or.inr ⟨d, '/', h, by cases goos <;> decide⟩
    · intro c hc
      have h1 : c ≠ '\\' := fun e => hback (e ▸ hc)
      have h2 : c ≠ '/' := fun e => hname (e ▸ hc)
      cases goos <;> simp [isPathSeparator, h1, h2]
  unfold patternMatchtesFilepath
  simp [hlen, hex, hdw, hpath, hsplit]

/-- The pattern `**/*.*` on a path written with both slashes. -/
theorem patternMatchtesFilepath_dir_wildcard_witness :
    patternMatchtesFilepath .unix "**/*.*".toList "test\\test/config.json".toList =
      filepathMatch .unix "*.*".toList "config.json".toList :=
  patternMatchtesFilepath_dir_wildcard .unix "**/*.*".toList "test\\test/config.json".toList
    "test/test/".toList "config.json".toList (by decide) (by decide) (by decide) (by decide)
    (Or.inr ⟨"test/test".toList, by decide⟩) (by decide)

/-- C7, as stated, fails, on either platform: the pattern `*.css` has no `/`,
and the matcher and the glob match of `*.css` against `a\b.css` itself disagree.
On Windows the matcher accepts the path and the glob match rejects it, because
`*` does not pass the separator `\`; elsewhere the glob match accepts it and
the matcher, which has turned `\` into the separator `/`, rejects it. -/
theorem no_slash_direct_match_claim_fails :
    '/' ∉ "*.css".toList ∧
      patternMatchtesFilepath .windows "*.css".toList "a\\b.css".toList ≠
        filepathMatch .windows "*.css".toList "a\\b.css".toList ∧
      patternMatchtesFilepath .unix "*.css".toList "a\\b.css".toList ≠
        filepathMatch .unix "*.css".toList "a\\b.css".toList := by
  decide

/-- C7 (amended): for a pattern without `/`, the matcher equals the glob match
of the pattern against the path with every back slash rewritten to `/`; for a
path without back slash this is the glob match against the path itself. -/
theorem patternMatchtesFilepath_no_slash (goos : GOOS) (p path : Str) (h : '/' ∉ p) :
    patternMatchtesFilepath goos p path = filepathMatch goos p (replaceBackslashes path) ∧
      ('\\' ∉ path → patternMatchtesFilepath goos p path = filepathMatch goos p path) := by
  refine ⟨patternMatchtesFilepath_of_no_slash goos p path h, fun hb => ?_⟩
  rw [patternMatchtesFilepath_of_no_slash goos p path h,
    replaceBackslashes_of_not_mem path hb]

/-- The pattern `*.css` on a path with a back slash. -/
theorem patternMatchtesFilepath_no_slash_witness :
    patternMatchtesFilepath .unix "*.css".toList "a\\b.css".toList =
      filepathMatch .unix "*.css".toList (replaceBackslashes "a\\b.css".toList) :=
  (patternMatchtesFilepath_no_slash .unix "*.css".toList "a\\b.css".toList (by decide)).1

/-- C8: on a build whose separator is `/` the pattern `*.css` does not match
`aaa/config.tpl.css`, which the test suite expects it to match: the pattern has
no `/`, so it goes to `filepath.Match` as it is, and there `*` does not pass the
separator.  On Windows the same call returns true. -/
theorem star_css_stops_at_slash :
    patternMatchtesFilepath .unix "*.css".toList "aaa/config.tpl.css".toList = false ∧
      patternMatchtesFilepath .windows "*.css".toList "aaa/config.tpl.css".toList = true := by
  decide

/-- C9, as stated, fails, on either platform: the empty pattern matches the
empty path, and so does the pattern `*`. -/
theorem empty_never_matches_claim_fails :
    (patternMatchtesFilepath .windows "".toList "".toList = true ∧
      patternMatchtesFilepath .windows "*".toList "".toList = true) ∧
    (patternMatchtesFilepath .unix "".toList "".toList = true ∧
      patternMatchtesFilepath .unix "*".toList "".toList = true) := by
  decide

/-- C9 (amended): the empty pattern matches no non-empty path; and the empty
path is matched by no pattern whose segments are all non-empty and whose last
segment has a character other than `*`. -/
theorem patternMatchtesFilepath_empty (goos : GOOS) (pattern path : Str)
    (h : (pattern = [] ∧ path ≠ []) ∨
      (path = [] ∧ (∀ seg ∈ stringsSplit '/' pattern, seg ≠ []) ∧
        ∃ c ∈ (stringsSplit '/' pattern).getLastD [], c ≠ '*')) :
    patternMatchtesFilepath goos pattern path = false := by
  rcases h with ⟨rfl, hpath⟩ | ⟨rfl, hsegs, c, hc, hne⟩
  · rw [patternMatchtesFilepath_of_no_slash _ _ _ (by simp), filepathMatch_nil_pattern]
    cases path with
    | nil => exact absurd rfl hpath
    | cons a l => rfl
  · have hlast : (stringsSplit '/' pattern).getLastD [] ∈ stringsSplit '/' pattern :=
      getLastD_mem _ _ (stringsSplit_ne_nil _ _)
    have hpat : ∃ c ∈ pattern, c ≠ '*' :=
      ⟨c, stringsSplit_mem_sub '/' pattern _ hlast c hc, hne⟩
    have hm1 := filepathMatch_nil_name goos pattern hpat
    have hm2 := filepathMatch_nil_name goos _ ⟨c, hc, hne⟩
    have hsplit : (filepathSplit goos ([] : Str)).2 = [] := rfl
    have hrep : replaceBackslashes ([] : Str) = [] := rfl
    unfold patternMatchtesFilepath
    simp only [hrep, hsplit, hm1, hm2, getPatternWithoutWildcards_eq]
    by_cases hex : containsExactDirPattern (stringsSplit '/' pattern) = true
    · obtain ⟨seg, hseg, hd, hf⟩ := (containsExactDirPattern_iff _).mp hex
      have hjoin : stringsContains []
          (stringsJoin ((stringsSplit '/' pattern).filter fun seg =>
            !isDirWildCardPattern seg && !isFileWildCardPattern seg)) = false := by
        cases hj : stringsJoin ((stringsSplit '/' pattern).filter fun seg =>
            !isDirWildCardPattern seg && !isFileWildCardPattern seg) with
        | nil =>
          exfalso
          refine stringsJoin_ne_nil _ ?_ ?_ hj
          · intro hnil
            have : seg ∈ (stringsSplit '/' pattern).filter fun seg =>
                !isDirWildCardPattern seg && !isFileWildCardPattern seg :=
              List.mem_filter.mpr ⟨hseg, by simp [hd, hf]⟩
            rw [hnil] at this
            simp at this
          · intro s hs
            exact hsegs s (List.mem_filter.mp hs).1
        | cons a l => simp [stringsContains, stringsHasPrefix]
      simp [hex, hjoin]
    · simp [hex]

/-- The pattern `**/*.*` of the test suite on the empty path. -/
theorem patternMatchtesFilepath_empty_witness :
    patternMatchtesFilepath .unix "**/*.*".toList [] = false :=
  patternMatchtesFilepath_empty .unix "**/*.*".toList []
    (Or.inr ⟨rfl, by decide, '.', by decide, by decide⟩)

/-! ## The copy step -/

/-- C10: `doCopy` clears `NeedsSync` of an entry that needs a sync, whose
source exists and whose paths are non-empty, whether `copyFile` returns nil or
an error, and changes no other field; an entry that needs no sync, or whose
source does not exist, is left as it is. -/
theorem doCopy_clears_flag (os : World) (watchedFile : WatchedFile) :
    (watchedFile.NeedsSync = true →
      doesDirOrFileExist os watchedFile.AbsolutePath = true →
      watchedFile.AbsolutePath ≠ [] → watchedFile.Destination ≠ [] →
      ∀ failed, copyFile os watchedFile.AbsolutePath watchedFile.Destination = failed →
        (doCopy os watchedFile).1 = { watchedFile with NeedsSync := false } ∧
          Effect.copyFile watchedFile.AbsolutePath watchedFile.Destination failed ∈
            (doCopy os watchedFile).2) ∧
    (watchedFile.NeedsSync = false ∨
        doesDirOrFileExist os watchedFile.AbsolutePath = false →
      doCopy os watchedFile = (watchedFile, [])) := by
  constructor
  · intro hn hex ha hd failed hf
    simp [doCopy, hn, hex, ha, hd, hf]
  · rintro (h | h)
    · simp [doCopy, h]
    · simp [doCopy, h]

/-- An entry whose copy fails because the destination cannot be created. -/
theorem doCopy_clears_flag_witness :
    (doCopy (sampleWorld .unix ["src/a.txt".toList] false)
        { sampleEntry true with NeedsSync := true }).1 = sampleEntry true ∧
      Effect.copyFile "src/a.txt".toList "dst/a.txt".toList true ∈
        (doCopy (sampleWorld .unix ["src/a.txt".toList] false)
          { sampleEntry true with NeedsSync := true }).2 :=
  (doCopy_clears_flag (sampleWorld .unix ["src/a.txt".toList] false)
    { sampleEntry true with NeedsSync := true }).1 (by decide) (by decide) (by decide)
    (by decide) true (by decide)

end SyncTool
